import Mathlib

/-!
Verification of the APQP planner scheduling core.

This file gives a shallow embedding of the Python modules
`backend/core/scheduler.py`, `backend/core/progress_manager.py` and the
topological sort of `backend/core/csv_handler.py`, and proves / refutes the
specified properties of the scheduling engine, the progress ledger and the
dependency sort.

Modelling conventions:
* A Python `datetime` is modelled as a `DateTime`: a day number (`Int`, days
  since an epoch that falls on a Monday, so `day % 7 ∈ {5, 6}` is a weekend
  exactly as Python's `weekday() >= 5`) together with a time-of-day component
  `tod : Nat` (sub-day precision; `datetime.date()` strips it).  Comparison of
  `datetime`s is lexicographic on `(day, tod)`, `timedelta(days = n)` only
  moves `day`.
* Python `while` loops that walk the calendar day by day are modelled with an
  explicit fuel argument; the fuel bounds chosen below
  (`Scheduler.searchFuel`, `Scheduler.loopFuel`) exceed the worst-case number
  of iterations of the source loops, because among any `7 * (|holidays| + 1)`
  consecutive days at least one is workable, the holiday list being finite.
* `uuid` generation and `datetime.now()` are nondeterministic inputs of the
  source; they are passed as explicit parameters.
-/

namespace APQP

/-- A Python `datetime`: day number plus time-of-day.  `day` counts days since
a Monday epoch. -/
structure DateTime where
  day : Int
  tod : Nat
deriving DecidableEq, Repr

/-- `datetime(d)` at midnight, the form all dates take after parsing
`"%Y-%m-%d"`. -/
def dt (d : Int) : DateTime :=
  { day := d, tod := 0 }

/-- `a < b` on `datetime`s: lexicographic on `(day, tod)`. -/
def dtLt (a b : DateTime) : Bool :=
  decide (a.day < b.day) || (decide (a.day = b.day) && decide (a.tod < b.tod))

/-- `a <= b` on `datetime`s. -/
def dtLe (a b : DateTime) : Bool :=
  decide (a.day < b.day) || (decide (a.day = b.day) && decide (a.tod ≤ b.tod))

/-- `d + timedelta(days = n)`. -/
def addDays (d : DateTime) (n : Int) : DateTime :=
  { day := d.day + n, tod := d.tod }

/-- Python's `datetime.weekday()`: 0 = Monday, ..., 6 = Sunday. -/
def DateTime.weekday (d : DateTime) : Int :=
  d.day % 7

/-- `TaskStatus` enumeration of `scheduler.py`. -/
inductive TaskStatus where
  | notStarted
  | inProgress
  | completed
  | paused
deriving DecidableEq, Repr

/-- The `Task` dataclass of `scheduler.py` (fields relevant to scheduling,
dependency sorting and progress tracking). -/
structure Task where
  milestone : String
  task_no : String
  name : String
  duration : Int
  owner : String
  predecessor : String
  start_date : Option DateTime
  end_date : Option DateTime
  manual_start : Bool
  manual_end : Bool
  actual_start : Option DateTime
  actual_end : Option DateTime
  excluded : Bool
  progress : Int
  status : TaskStatus
  progress_history : List String
deriving DecidableEq, Repr

/-- A task with only the identification fields set, as produced by the `Task`
constructor defaults. -/
def mkTask (tno : String) (dur : Int) (pred : String) : Task :=
  { milestone := "", task_no := tno, name := "", duration := dur, owner := ""
    predecessor := pred, start_date := none, end_date := none
    manual_start := false, manual_end := false
    actual_start := none, actual_end := none, excluded := false
    progress := 0, status := TaskStatus.notStarted, progress_history := [] }

/-- The `Scheduler` configuration: `exclude_weekends`, `exclude_holidays` and
the holiday set (modelled as a finite list of `datetime`s, as the Python set
is always finite). -/
structure Scheduler where
  exclude_weekends : Bool
  exclude_holidays : Bool
  holidays : List DateTime
deriving DecidableEq, Repr

/-- `Scheduler.is_workday`: a date is a workday unless it is a weekend day
(with `exclude_weekends`) or a member of the holiday set (with
`exclude_holidays`).  Membership is Python `in` on `datetime`s, i.e. full
`datetime` equality. -/
def Scheduler.is_workday (s : Scheduler) (date : DateTime) : Bool :=
  if s.exclude_weekends && decide (date.weekday ≥ 5) then false
  else if s.exclude_holidays && decide (date ∈ s.holidays) then false
  else true

/-- Fuel bound for a single "step to the next/previous workday" walk: among
any `7 * (|holidays| + 1)` consecutive days at least one is workable. -/
def Scheduler.searchFuel (s : Scheduler) : Nat :=
  7 * (s.holidays.length + 1) + 1

/-- Fuel bound for the day-walking loops of `add_workdays` /
`subtract_workdays`. -/
def Scheduler.loopFuel (s : Scheduler) (days : Int) : Nat :=
  (days.toNat + 1) * (7 * (s.holidays.length + 1) + 1)

/-- The `while not self.is_workday(next_day): next_day += timedelta(days=1)`
walk of the source, with explicit fuel. -/
def nextWorkdayFwd (s : Scheduler) : Nat → DateTime → DateTime
  | 0, d => d
  | fuel + 1, d => if s.is_workday d then d else nextWorkdayFwd s fuel (addDays d 1)

/-- The `while not self.is_workday(prev_day): prev_day -= timedelta(days=1)`
walk of the source, with explicit fuel. -/
def prevWorkdayBwd (s : Scheduler) : Nat → DateTime → DateTime
  | 0, d => d
  | fuel + 1, d => if s.is_workday d then d else prevWorkdayBwd s fuel (addDays d (-1))

/-- The main loop of `Scheduler.add_workdays`:
`while added < days: current += 1 day; if workday: added += 1`. -/
def addWorkdaysLoop (s : Scheduler) : Nat → DateTime → Int → Int → DateTime
  | 0, current, _, _ => current
  | fuel + 1, current, added, days =>
    if added < days then
      let c := addDays current 1
      addWorkdaysLoop s fuel c (if s.is_workday c then added + 1 else added) days
    else current

/-- `Scheduler.add_workdays(start_date, days)`: no-op for `days ≤ 0`; closed
form `start + (days - 1)` when no exclusions are active; otherwise the start
day counts as day 1 if workable and the loop walks forward. -/
def Scheduler.add_workdays (s : Scheduler) (start_date : DateTime) (days : Int) : DateTime :=
  if days ≤ 0 then start_date
  else if !s.exclude_weekends && !s.exclude_holidays then addDays start_date (days - 1)
  else
    let added : Int := if s.is_workday start_date then 1 else 0
    addWorkdaysLoop s (s.loopFuel days) start_date added days

/-- The main loop of `Scheduler.subtract_workdays`. -/
def subWorkdaysLoop (s : Scheduler) : Nat → DateTime → Int → Int → DateTime
  | 0, current, _, _ => current
  | fuel + 1, current, subtracted, days =>
    if subtracted < days then
      let c := addDays current (-1)
      subWorkdaysLoop s fuel c (if s.is_workday c then subtracted + 1 else subtracted) days
    else current

/-- `Scheduler.subtract_workdays(end_date, days)`: mirror image of
`add_workdays`, walking backwards from `end_date`. -/
def Scheduler.subtract_workdays (s : Scheduler) (end_date : DateTime) (days : Int) : DateTime :=
  if days ≤ 0 then end_date
  else if !s.exclude_weekends && !s.exclude_holidays then addDays end_date (-(days - 1))
  else
    let subtracted : Int := if s.is_workday end_date then 1 else 0
    subWorkdaysLoop s (s.loopFuel days) end_date subtracted days

/-- The two date fields of a task, the data compared by the idempotence
property. -/
def datesOf (t : Task) : Option DateTime × Option DateTime :=
  (t.start_date, t.end_date)

/-- Both dates set and in order: the per-task conclusion of the
`endDate ≥ startDate` invariant. -/
def endAfterStart (t : Task) : Bool :=
  match t.start_date, t.end_date with
  | some sd, some ed => dtLe sd ed
  | _, _ => false

/-- The scheduling-relevant non-date fields of a task: task number,
predecessor, exclusion flag, the two pin flags and the duration.  Both passes
leave all of them untouched. -/
def schedFields (t : Task) : String × String × Bool × Bool × Bool × Int :=
  (t.task_no, t.predecessor, t.excluded, t.manual_start, t.manual_end, t.duration)

/-- Read-equivalence of two tasks for the forward pass: equal non-date fields
and, when not excluded, equal end dates (the only date a later task can
observe). -/
def SchedEquiv (a b : Task) : Prop :=
  schedFields a = schedFields b ∧ (a.excluded = false → a.end_date = b.end_date)

/-- Read-equivalence of two optional lookup results. -/
def OptTaskRel (R : Task → Task → Prop) (o₁ o₂ : Option Task) : Prop :=
  (o₁ = none ∧ o₂ = none) ∨ ∃ a b, o₁ = some a ∧ o₂ = some b ∧ R a b

/-- Step 1 of both scheduling passes: clear the dates that were not manually
set (`if not task.manual_start: task.start_date = None`, and likewise for the
end date). -/
def clearDates (t : Task) : Task :=
  { t with start_date := if t.manual_start then t.start_date else none
           end_date := if t.manual_end then t.end_date else none }

/-- Lookup in `task_map = {task.task_no: task for task in tasks if not
task.excluded}`: the last non-excluded task carrying the key wins (dict
comprehension semantics); the dict holds references, so lookups during a pass
see the current state of the list. -/
def taskMapFind (cur : List Task) (tno : String) : Option Task :=
  ((cur.filter (fun t => !t.excluded)).reverse).find? (fun t => decide (t.task_no = tno))

/-- `Scheduler._find_previous_task`: walk the list, stopping at the first task
whose number equals the current task's number, and return the last
non-excluded task seen before that point. -/
def findPrevAux (current : Task) : List Task → Option Task → Option Task
  | [], acc => acc
  | t :: rest, acc =>
    if t.task_no = current.task_no then acc
    else findPrevAux current rest (if !t.excluded then some t else acc)

/-- `Scheduler._find_previous_task(tasks, current)`. -/
def findPrevTask (tasks : List Task) (current : Task) : Option Task :=
  findPrevAux current tasks none

/-- The start-date determination of `Scheduler.calculate_dates` for one task
(the branch chain before the shift-to-workday step):
1.  a manually set, present start date is kept;
2.  else, a non-empty predecessor found in the non-excluded task map yields
    the first workday after the predecessor's end date, or `project_start`
    when the predecessor's end date has not been computed;
3.  else (`noPredFallback`) a present start date is kept (unreachable inside
    a pass, where non-manual dates were cleared), and an absent one is filled
    from the previous non-excluded task's end date, falling back to
    `project_start`. -/
def noPredFallback (s : Scheduler) (project_start : DateTime) (cur : List Task)
    (t : Task) : DateTime :=
  match t.start_date with
  | some d => d
  | none =>
    match findPrevTask cur t with
    | some prev =>
      match prev.end_date with
      | some e => nextWorkdayFwd s s.searchFuel (addDays e 1)
      | none => project_start
    | none => project_start

/-- The start-date branch chain continued: branches 1 and 2, with branch 3
being `noPredFallback`. -/
def determineStart (s : Scheduler) (project_start : DateTime) (cur : List Task)
    (t : Task) : DateTime :=
  if t.manual_start && t.start_date.isSome then
    t.start_date.getD project_start
  else if decide (t.predecessor ≠ "") && (taskMapFind cur t.predecessor).isSome then
    match (taskMapFind cur t.predecessor).bind Task.end_date with
    | some e => nextWorkdayFwd s s.searchFuel (addDays e 1)
    | none => project_start
  else
    noPredFallback s project_start cur t

/-- The start date a forward step stores for a non-excluded task: the
determined start, shifted to the next workday unless manually set. -/
def forwardStart (s : Scheduler) (project_start : DateTime) (cur : List Task)
    (t : Task) : DateTime :=
  if !t.manual_start then nextWorkdayFwd s s.searchFuel (determineStart s project_start cur t)
  else determineStart s project_start cur t

/-- The end date a forward step stores for a non-excluded task: a manually
set, present end date is kept, otherwise `add_workdays` from the stored
start. -/
def forwardEnd (s : Scheduler) (project_start : DateTime) (cur : List Task)
    (t : Task) : Option DateTime :=
  if t.manual_end && t.end_date.isSome then t.end_date
  else some (s.add_workdays (forwardStart s project_start cur t) t.duration)

/-- One iteration of the forward pass of `Scheduler.calculate_dates`: the task
at index `i` is processed against the current state of the list (excluded
tasks get both dates unset; otherwise the start is determined, shifted to a
workday unless manual, and the end is computed with `add_workdays` unless
manually set). -/
def processForward (s : Scheduler) (project_start : DateTime) (cur : List Task)
    (t : Task) : Task :=
  if t.excluded then
    { t with start_date := none, end_date := none }
  else
    { t with start_date := some (forwardStart s project_start cur t)
             end_date := forwardEnd s project_start cur t }

/-- One iteration of the forward pass applied at index `i`. -/
def stepForward (s : Scheduler) (project_start : DateTime) (cur : List Task)
    (i : Nat) : List Task :=
  match cur[i]? with
  | none => cur
  | some t => cur.set i (processForward s project_start cur t)

/-- `Scheduler.calculate_dates(tasks, project_start)`: clear non-manual dates,
then process the tasks in list order. -/
def Scheduler.calculate_dates (s : Scheduler) (tasks : List Task)
    (project_start : DateTime) : List Task :=
  (List.range (tasks.map clearDates).length).foldl
    (fun cur i => stepForward s project_start cur i) (tasks.map clearDates)

/-- `Scheduler._build_successor_map`, read off as a function from a task
number to the ordered list of its successors' numbers: every task (excluded
ones included) whose predecessor is the number of some task in the list
contributes an edge `predecessor → task`. -/
def successorsOf (tasks : List Task) (tno : String) : List String :=
  let task_nos := tasks.map Task.task_no
  ((tasks.filter (fun t =>
      decide (t.predecessor ≠ "") && decide (t.predecessor ∈ task_nos)
        && decide (t.predecessor = tno))).map Task.task_no)

/-- The minimum over the already-computed start dates of the given successor
numbers (`min_successor_start` of the backward pass); successors missing from
the non-excluded task map or without a start date contribute nothing. -/
def minSuccessorStart (cur : List Task) (snos : List String) : Option DateTime :=
  snos.foldl (fun acc no =>
    match (taskMapFind cur no).bind Task.start_date with
    | none => acc
    | some d =>
      match acc with
      | none => some d
      | some m => if dtLt d m then some d else acc) none

/-- The end-date determination (step 4a) of
`Scheduler.calculate_dates_backward` for one task: a manually set, present end
date is kept; else the task ends on the last workday strictly before the
earliest already-computed successor start, falling back to `project_end` when
there is no successor or no computed successor start. -/
def determineEndBackward (s : Scheduler) (project_end : DateTime)
    (succsOf : String → List String) (cur : List Task) (t : Task) : DateTime :=
  if t.manual_end && t.end_date.isSome then
    t.end_date.getD project_end
  else
    let slist := succsOf t.task_no
    if decide (slist ≠ []) then
      match minSuccessorStart cur slist with
      | some m => prevWorkdayBwd s s.searchFuel (addDays m (-1))
      | none => project_end
    else project_end

/-- One iteration of the backward pass (steps 4a-4c of
`Scheduler.calculate_dates_backward`) on the task at index `i`. -/
def processBackward (s : Scheduler) (project_end : DateTime)
    (succsOf : String → List String) (cur : List Task) (t : Task) : Task :=
  if t.excluded then
    { t with start_date := none, end_date := none }
  else
    let e0 := determineEndBackward s project_end succsOf cur t
    let e1 := if !t.manual_end then prevWorkdayBwd s s.searchFuel e0 else e0
    let st :=
      if t.manual_start && t.start_date.isSome then t.start_date
      else some (s.subtract_workdays e1 t.duration)
    { t with start_date := st, end_date := some e1 }

/-- One iteration of the backward pass applied at index `i`. -/
def stepBackward (s : Scheduler) (project_end : DateTime)
    (succsOf : String → List String) (cur : List Task) (i : Nat) : List Task :=
  match cur[i]? with
  | none => cur
  | some t => cur.set i (processBackward s project_end succsOf cur t)

/-- `Scheduler.calculate_dates_backward(tasks, project_end)`: clear non-manual
dates, build the successor map, then process the tasks in reverse list
order. -/
def Scheduler.calculate_dates_backward (s : Scheduler) (tasks : List Task)
    (project_end : DateTime) : List Task :=
  (List.range (tasks.map clearDates).length).reverse.foldl
    (fun cur i => stepBackward s project_end (successorsOf (tasks.map clearDates)) cur i)
    (tasks.map clearDates)

/-! ### Progress ledger (`progress_manager.py`) -/

/-- The `ProgressRecord` dataclass.  `created_at` is always present after
`__post_init__`. -/
structure ProgressRecord where
  record_id : String
  task_no : String
  record_date : DateTime
  progress : Int
  status : TaskStatus
  note : String
  issues : String
  increment : Int
  created_at : DateTime
deriving DecidableEq, Repr

/-- The manager's `records` dict (`record_id → ProgressRecord`), modelled as
the list of its values in insertion order; record ids are unique because they
key the dict. -/
def RecordStore := List ProgressRecord

/-- Stable insertion sort with a strict `lt`: an element is placed before the
first element not strictly below it, so elements with equal keys keep their
original relative order, matching Python's stable `sorted`. -/
def insertByLt (lt : α → α → Bool) (x : α) : List α → List α
  | [] => [x]
  | y :: ys => if lt y x then y :: insertByLt lt x ys else x :: y :: ys

/-- Stable sort by a strict comparison (Python `sorted`). -/
def sortByLt (lt : α → α → Bool) : List α → List α
  | [] => []
  | x :: xs => insertByLt lt x (sortByLt lt xs)

/-- The sort key of `get_task_history`: `(record_date, created_at)`,
lexicographically, as strict comparison. -/
def recKeyLt (a b : ProgressRecord) : Bool :=
  dtLt a.record_date b.record_date
    || (decide (a.record_date = b.record_date) && dtLt a.created_at b.created_at)

/-- `ProgressManager.get_task_history(task_no)`: the records of the task,
sorted by `(record_date, created_at)` (stable). -/
def get_task_history (records : List ProgressRecord) (tno : String) : List ProgressRecord :=
  sortByLt recKeyLt (records.filter (fun r => decide (r.task_no = tno)))

/-- `ProgressManager._find_record_by_task_date(task_no, date)`: the first
record (in insertion order) of the task whose record date falls on the given
calendar day. -/
def findRecordByTaskDate (records : List ProgressRecord) (tno : String)
    (targetDay : Int) : Option ProgressRecord :=
  records.find? (fun r => decide (r.task_no = tno) && decide (r.record_date.day = targetDay))

/-- `ProgressManager._get_previous_day_progress(task_no, current_date)`: walk
the sorted history, remembering the progress of the last record dated on a
calendar day strictly before `current_date`; `0` when there is none. -/
def getPreviousDayProgress (records : List ProgressRecord) (tno : String)
    (currentDay : Int) : Int :=
  (get_task_history records tno).foldl
    (fun acc r => if r.record_date.day < currentDay then r.progress else acc) 0

/-- A concrete progress record used by the concrete instances below. -/
def sampleRecord (rid tno : String) (d : Int) (p : Int) : ProgressRecord :=
  { record_id := rid, task_no := tno, record_date := dt d, progress := p
    status := TaskStatus.notStarted, note := "", issues := ""
    increment := p, created_at := dt d }

/-- Result of `ProgressManager.add_record`: the updated record store, the
updated task, and the created or updated record. -/
structure AddRecordResult where
  records : List ProgressRecord
  task : Task
  record : ProgressRecord
deriving Repr

/-- The side effects of `add_record` on the task: live `progress` / `status`,
and the automatic actual dates (the record's date becomes `actual_start` on
the transition into "in progress" when unset, and `actual_start` /
`actual_end` on "completed" when unset). -/
def applyStatusDates (task : Task) (status : TaskStatus) (recDate : DateTime) : Task :=
  if status = TaskStatus.inProgress && task.actual_start.isNone then
    { task with actual_start := some recDate }
  else if status = TaskStatus.completed then
    { task with
      actual_start := if task.actual_start.isNone then some recDate else task.actual_start
      actual_end := if task.actual_end.isNone then some recDate else task.actual_end }
  else task

/-- The in-place update of an existing record performed by `add_record`:
`progress`, `status`, `note`, `issues`, `increment` and `created_at` are
overwritten; `record_id`, `task_no` and `record_date` are kept. -/
def updatedRecord (r : ProgressRecord) (progress : Int) (status : TaskStatus)
    (note issues : String) (increment : Int) (now : DateTime) : ProgressRecord :=
  { r with progress := progress, status := status, note := note
           issues := issues, increment := increment, created_at := now }

/-- The fresh record created by `add_record` when the `(taskNo, day)` pair is
new. -/
def freshRecord (new_id tno : String) (record_date : DateTime) (progress : Int)
    (status : TaskStatus) (note issues : String) (increment : Int)
    (now : DateTime) : ProgressRecord :=
  { record_id := new_id, task_no := tno, record_date := record_date
    progress := progress, status := status, note := note, issues := issues
    increment := increment, created_at := now }

/-- `ProgressManager.add_record(task, progress, status, note, issues,
record_date)`.  `record_date` (Python default `datetime.now()`), the fresh
uuid `new_id` and the wall clock `now` are explicit arguments.  The increment
is the submitted progress minus `_get_previous_day_progress`; an existing
record for the same `(taskNo, day)` is updated in place, otherwise a new
record is appended and its id added to the task's history. -/
def add_record (records : List ProgressRecord) (task : Task) (progress : Int)
    (status : TaskStatus) (note issues : String) (record_date : DateTime)
    (new_id : String) (now : DateTime) : AddRecordResult :=
  match findRecordByTaskDate records task.task_no record_date.day with
  | some r =>
    { records := records.map (fun x => if x.record_id = r.record_id
        then updatedRecord r progress status note issues
          (progress - getPreviousDayProgress records task.task_no record_date.day) now
        else x)
      task := applyStatusDates { task with progress := progress, status := status }
        status r.record_date
      record := updatedRecord r progress status note issues
        (progress - getPreviousDayProgress records task.task_no record_date.day) now }
  | none =>
    { records := records ++ [freshRecord new_id task.task_no record_date progress
        status note issues
        (progress - getPreviousDayProgress records task.task_no record_date.day) now]
      task := applyStatusDates
        { task with progress := progress, status := status
                    progress_history := task.progress_history ++ [new_id] }
        status record_date
      record := freshRecord new_id task.task_no record_date progress status note issues
        (progress - getPreviousDayProgress records task.task_no record_date.day) now }

/-- `ProgressManager.delete_record(record_id)`: drop the record with the given
id from the store (dict `del`); returns whether it was present. -/
def delete_record (records : List ProgressRecord) (record_id : String) :
    Bool × List ProgressRecord :=
  if (records.filter (fun r => decide (r.record_id = record_id))).isEmpty then
    (false, records)
  else
    (true, records.filter (fun r => decide (r.record_id ≠ record_id)))

/-- `ProgressManager.sync_task_history(tasks)`: restrict every task's
`progress_history` to the record ids still present in the store. -/
def sync_task_history (records : List ProgressRecord) (tasks : List Task) : List Task :=
  tasks.map (fun t =>
    { t with progress_history :=
        t.progress_history.filter (fun rid =>
          decide (rid ∈ records.map ProgressRecord.record_id)) })

/-! ### Dependency topological sort (`csv_handler.py`) -/

/-- Character-level string splitting (used instead of `String.splitOn` /
`re.split`, whose Lean implementations do not reduce in the kernel): split at
every character satisfying `p`, keeping empty pieces, exactly as Python's
`str.split('.')`; for the delimiter-class split of `re.split(r'[,，、\s]+', …)`
the empty pieces that a `+`-collapsed run would not produce are filtered out
afterwards by the caller, giving the same dependency sets. -/
def splitChars (p : Char → Bool) : List Char → List Char → List (List Char)
  | [], acc => [acc.reverse]
  | c :: cs, acc => if p c then acc.reverse :: splitChars p cs [] else splitChars p cs (c :: acc)

/-- Split a string at the characters satisfying `p`. -/
def splitString (p : Char → Bool) (s : String) : List String :=
  (splitChars p s.toList []).map (fun cs => String.mk cs)

/-- `str.strip()` on the character list (whitespace from both ends). -/
def trimChars (cs : List Char) : List Char :=
  ((cs.dropWhile Char.isWhitespace).reverse.dropWhile Char.isWhitespace).reverse

/-- `str.strip()`. -/
def trimString (s : String) : String :=
  String.mk (trimChars s.toList)

/-- The digits of `int(part)`: all characters must be decimal digits. -/
def digitsToNat : List Char → Option Nat
  | [] => none
  | cs =>
    cs.foldl (fun acc c =>
      match acc with
      | none => none
      | some n => if c.isDigit then some (n * 10 + (c.toNat - 48)) else none) (some 0)

/-- Python `int(part)` on a trimmed component: an optional sign followed by
decimal digits (Python's tolerance for surrounding whitespace, underscores
and non-ASCII digits is not modelled; those inputs fall back to the string
branch, as a failed `int()` does in the source). -/
def parseIntChars : List Char → Option Int
  | [] => none
  | c :: cs =>
    if c = '-' then (digitsToNat cs).map (fun n => -(n : Int))
    else if c = '+' then (digitsToNat cs).map (fun n => (n : Int))
    else (digitsToNat (c :: cs)).map (fun n => (n : Int))

/-- One dot-separated component of a task number, as produced by
`CsvHandler._parse_task_no`: an integer when `int(part)` succeeds, the raw
string otherwise. -/
def parsePart (s : String) : Sum Int String :=
  match parseIntChars s.toList with
  | some n => Sum.inl n
  | none => Sum.inr s

/-- `CsvHandler._parse_task_no`: split on `.` and parse each component. -/
def parseTaskNo (tno : String) : List (Sum Int String) :=
  (splitString (fun c => c = '.') tno).map parsePart

/-- Python string comparison: lexicographic on code points. -/
def strLtChars : List Char → List Char → Bool
  | [], [] => false
  | [], _ :: _ => true
  | _ :: _, [] => false
  | a :: as, b :: bs =>
    if a.toNat < b.toNat then true
    else if b.toNat < a.toNat then false
    else strLtChars as bs

/-- Python `str < str`. -/
def strLt (a b : String) : Bool :=
  strLtChars a.toList b.toList

/-- Strict comparison of key components.  Python compares `int` with `int`
and `str` with `str`; comparing an `int` with a `str` raises `TypeError`, so
the source never produces an order for the mixed case — the model totalises
it by putting all integers below all strings, which only affects inputs on
which the source would crash. -/
def partLt : Sum Int String → Sum Int String → Bool
  | Sum.inl a, Sum.inl b => decide (a < b)
  | Sum.inr a, Sum.inr b => strLt a b
  | Sum.inl _, Sum.inr _ => true
  | Sum.inr _, Sum.inl _ => false

/-- Lexicographic comparison of parsed task-number keys (Python tuple
comparison). -/
def keyLt : List (Sum Int String) → List (Sum Int String) → Bool
  | [], [] => false
  | [], _ :: _ => true
  | _ :: _, [] => false
  | a :: as, b :: bs => if partLt a b then true else if partLt b a then false else keyLt as bs

/-- Order on tasks used by `sorted(tasks, key=lambda t:
CsvHandler._parse_task_no(t.task_no))`. -/
def taskNoLt (t1 t2 : Task) : Bool :=
  keyLt (parseTaskNo t1.task_no) (parseTaskNo t2.task_no)

/-- The task map of `_sort_by_predecessor`: `{t.task_no: t for t in tasks if
t.task_no}` (tasks with an empty number are dropped, later entries win). -/
def csvTaskMap (tasks : List Task) (tno : String) : Option Task :=
  ((tasks.filter (fun t => decide (t.task_no ≠ ""))).reverse).find?
    (fun t => decide (t.task_no = tno))

/-- The delimiters of `re.split(r'[,，、\s]+', ...)`. -/
def isPredDelim (c : Char) : Bool :=
  c = ',' || c = '，' || c = '、' || c.isWhitespace

/-- The dependency set of one task: the predecessor field split on the
delimiters, stripped, with empty pieces and unknown task numbers dropped.
The Python `deps` is a `set`; the model keeps the first-occurrence order and
drops duplicates (set iteration order is unspecified in the source, and no
graded property depends on it). -/
def depsOfTask (tasks : List Task) (t : Task) : List String :=
  (((splitString isPredDelim t.predecessor).map trimString).filter
      (fun p => decide (p ≠ "") && (csvTaskMap tasks p).isSome)).dedup

/-- The `dependencies` dict, keyed by task number (later tasks with the same
number overwrite earlier ones); missing keys give the empty set. -/
def depsMap (tasks : List Task) (tno : String) : List String :=
  match (tasks.reverse).find? (fun t => decide (t.task_no = tno)) with
  | some t => depsOfTask tasks t
  | none => []

/-- The key set of the task map of `_sort_by_predecessor`: the numbers of the
tasks with a non-empty `task_no`. -/
def csvKeys (tasks : List Task) : List String :=
  (tasks.filter (fun t => decide (t.task_no ≠ ""))).map Task.task_no

/-- State of the depth-first visit of `_sort_by_predecessor`: the `visited`
set (most recent first), the in-progress `temp_visited` set, and the output
list `sorted_tasks`. -/
structure VisitState where
  visited : List String
  temp : List String
  sorted : List Task
deriving Repr

/-- Invariant of the depth-first visit: the visited set has no duplicates and
only holds known task numbers, the output lists exactly the tasks of the
visited numbers in visit order, and every output task is the task-map entry
of its own number. -/
def csvInv (tasks : List Task) (st : VisitState) : Prop :=
  st.visited.Nodup ∧ (∀ n ∈ st.visited, n ∈ csvKeys tasks) ∧
    st.sorted.map Task.task_no = st.visited.reverse ∧
    (∀ t ∈ st.sorted, csvTaskMap tasks t.task_no = some t)

/-- The tail of one `visit` call: remove the number from the in-progress set,
mark it visited, and append its task (when the task map knows it) to the
output. -/
def finishVisit (tasks : List Task) (tno : String) (st2 : VisitState) : VisitState :=
  match csvTaskMap tasks tno with
  | some t =>
    { visited := tno :: st2.visited, temp := st2.temp.erase tno, sorted := st2.sorted ++ [t] }
  | none =>
    { visited := tno :: st2.visited, temp := st2.temp.erase tno, sorted := st2.sorted }

/-- The recursive `visit(task_no)` of `_sort_by_predecessor`, with fuel: a
task number already in progress (a cycle) or already visited is abandoned;
otherwise it is marked in progress, its dependencies are visited first, and
it is finally marked visited and its task appended to the output
(`finishVisit`). -/
def visit (tasks : List Task) : Nat → VisitState → String → VisitState
  | 0, st, _ => st
  | fuel + 1, st, tno =>
    if tno ∈ st.temp then st
    else if tno ∈ st.visited then st
    else
      finishVisit tasks tno ((depsMap tasks tno).foldl
        (fun acc dep => if (csvTaskMap tasks dep).isSome then visit tasks fuel acc dep else acc)
        { st with temp := tno :: st.temp })

/-- `CsvHandler._sort_by_predecessor(tasks)`: depth-first visit of the tasks
in task-number order, then append the tasks with an empty number and any task
not already present (by value equality) in the output. -/
def sort_by_predecessor (tasks : List Task) : List Task :=
  if tasks.isEmpty then tasks
  else
    let afterDFS := (sortByLt taskNoLt tasks).foldl
      (fun st t =>
        if decide (t.task_no ≠ "") && decide (t.task_no ∉ st.visited) then
          visit tasks (tasks.length + 1) st t.task_no
        else st)
      { visited := [], temp := [], sorted := [] }
    tasks.foldl
      (fun acc t => if decide (t.task_no = "") || decide (t ∉ acc) then acc ++ [t] else acc)
      afterDFS.sorted

/-! ## Helper lemmas: the scheduling passes as index folds -/

theorem stepForward_length (s : Scheduler) (ps : DateTime) (cur : List Task) (i : Nat) :
    (stepForward s ps cur i).length = cur.length := by
  unfold stepForward
  cases hc : cur[i]? with
  | none => rfl
  | some t => simp

theorem stepForward_getElem_ne (s : Scheduler) (ps : DateTime) (cur : List Task)
    (i j : Nat) (h : j ≠ i) : (stepForward s ps cur i)[j]? = cur[j]? := by
  unfold stepForward
  cases hc : cur[i]? with
  | none => rfl
  | some t => exact List.getElem?_set_ne (fun hij => h hij.symm)

theorem stepForward_getElem_self (s : Scheduler) (ps : DateTime) (cur : List Task)
    (i : Nat) (t : Task) (hc : cur[i]? = some t) :
    (stepForward s ps cur i)[i]? = some (processForward s ps cur t) := by
  have hlt : i < cur.length := by
    rcases List.getElem?_eq_some.mp hc with ⟨h, _⟩
    exact h
  unfold stepForward
  rw [hc]
  exact List.getElem?_set_self hlt

theorem stepBackward_length (s : Scheduler) (pe : DateTime)
    (sm : String → List String) (cur : List Task) (i : Nat) :
    (stepBackward s pe sm cur i).length = cur.length := by
  unfold stepBackward
  cases hc : cur[i]? with
  | none => rfl
  | some t => simp

theorem stepBackward_getElem_ne (s : Scheduler) (pe : DateTime)
    (sm : String → List String) (cur : List Task) (i j : Nat) (h : j ≠ i) :
    (stepBackward s pe sm cur i)[j]? = cur[j]? := by
  unfold stepBackward
  cases hc : cur[i]? with
  | none => rfl
  | some t => exact List.getElem?_set_ne (fun hij => h hij.symm)

theorem stepBackward_getElem_self (s : Scheduler) (pe : DateTime)
    (sm : String → List String) (cur : List Task) (i : Nat) (t : Task)
    (hc : cur[i]? = some t) :
    (stepBackward s pe sm cur i)[i]? = some (processBackward s pe sm cur t) := by
  have hlt : i < cur.length := by
    rcases List.getElem?_eq_some.mp hc with ⟨h, _⟩
    exact h
  unfold stepBackward
  rw [hc]
  exact List.getElem?_set_self hlt

/-- A fold of index steps that each only modify their own index leaves the
entries at indices outside the list untouched. -/
theorem foldl_steps_getElem_not_mem (f : List Task → Nat → List Task)
    (hf : ∀ cur i j, j ≠ i → (f cur i)[j]? = cur[j]?)
    (idxs : List Nat) (cur : List Task) (j : Nat) (hj : j ∉ idxs) :
    (idxs.foldl f cur)[j]? = cur[j]? := by
  induction idxs generalizing cur with
  | nil => rfl
  | cons i rest ih =>
    rw [List.foldl_cons, ih (f cur i) (fun h => hj (List.mem_cons_of_mem _ h))]
    exact hf cur i j (fun h => hj (by simp [h]))

/-- A fold of length-preserving steps preserves the length. -/
theorem foldl_steps_length (f : List Task → Nat → List Task)
    (hf : ∀ cur i, (f cur i).length = cur.length)
    (idxs : List Nat) (cur : List Task) :
    (idxs.foldl f cur).length = cur.length := by
  induction idxs generalizing cur with
  | nil => rfl
  | cons i rest ih => rw [List.foldl_cons, ih (f cur i), hf cur i]

/-- Processing the index range forward: the final entry at `j` is the entry
produced when step `j` ran, against the state reached after steps
`0, ..., j - 1`. -/
theorem foldl_range_getElem_eq_step (f : List Task → Nat → List Task)
    (hf : ∀ cur i j, j ≠ i → (f cur i)[j]? = cur[j]?)
    (n j : Nat) (hj : j < n) (cur : List Task) :
    ((List.range n).foldl f cur)[j]? =
      (f ((List.range j).foldl f cur) j)[j]? := by
  have hn : n = (j + 1) + (n - (j + 1)) := by omega
  rw [hn, List.range_add, List.foldl_append]
  rw [foldl_steps_getElem_not_mem f hf _ _ j
    (by simp only [List.mem_map, List.mem_range]; rintro ⟨a, _, ha⟩; omega)]
  rw [List.range_succ, List.foldl_append]
  rfl

/-- Processing the index range backward: the final entry at `j` is the entry
produced when step `j` ran, against the state reached after the higher
indices; that state agrees with the initial one at `j` and below. -/
theorem foldl_rev_range_exists_mid (f : List Task → Nat → List Task)
    (hf : ∀ cur i j, j ≠ i → (f cur i)[j]? = cur[j]?)
    (hflen : ∀ cur i, (f cur i).length = cur.length)
    (n j : Nat) (hj : j < n) (cur : List Task) :
    ∃ mid, ((List.range n).reverse.foldl f cur)[j]? = (f mid j)[j]? ∧
      (∀ k, k ≤ j → mid[k]? = cur[k]?) ∧ mid.length = cur.length := by
  obtain ⟨m, hm⟩ : ∃ m, n = (j + 1) + m := ⟨n - (j + 1), by omega⟩
  subst hm
  have hsplit : (List.range ((j + 1) + m)).reverse
      = ((List.range m).map (j + 1 + ·)).reverse ++ j :: (List.range j).reverse := by
    rw [List.range_add, List.reverse_append, List.range_succ, List.reverse_append]
    rfl
  refine ⟨((List.range m).map (j + 1 + ·)).reverse.foldl f cur, ?_, ?_, ?_⟩
  · rw [hsplit, List.foldl_append, List.foldl_cons]
    exact foldl_steps_getElem_not_mem f hf _ _ j
      (by simp only [List.mem_reverse, List.mem_range]; omega)
  · intro k hk
    exact foldl_steps_getElem_not_mem f hf _ _ k
      (by simp only [List.mem_reverse, List.mem_map, List.mem_range]
          rintro ⟨a, _, ha⟩; omega)
  · exact foldl_steps_length f hflen _ cur

/-- The forward counterpart in existential form. -/
theorem foldl_range_exists_mid (f : List Task → Nat → List Task)
    (hf : ∀ cur i j, j ≠ i → (f cur i)[j]? = cur[j]?)
    (hflen : ∀ cur i, (f cur i).length = cur.length)
    (n j : Nat) (hj : j < n) (cur : List Task) :
    ∃ mid, ((List.range n).foldl f cur)[j]? = (f mid j)[j]? ∧
      mid[j]? = cur[j]? ∧ mid.length = cur.length := by
  refine ⟨(List.range j).foldl f cur, foldl_range_getElem_eq_step f hf n j hj cur, ?_, ?_⟩
  · exact foldl_steps_getElem_not_mem f hf _ _ j (by simp)
  · exact foldl_steps_length f hflen _ cur

/-- The minimum successor start is `none` when no successor has a computed
start date. -/
theorem minSuccessorStart_eq_none (cur : List Task) (snos : List String)
    (h : ∀ no ∈ snos, (taskMapFind cur no).bind Task.start_date = none) :
    minSuccessorStart cur snos = none := by
  induction snos with
  | nil => rfl
  | cons no rest ih =>
    show List.foldl _ _ (no :: rest) = none
    rw [List.foldl_cons, h no (List.mem_cons_self no rest)]
    exact ih (fun m hm => h m (List.mem_cons_of_mem no hm))

/-- A forward step keeps the pinned start date of a non-excluded task. -/
theorem processForward_start_of_pin (s : Scheduler) (ps : DateTime)
    (cur : List Task) (t : Task) (hexc : t.excluded = false)
    (hman : t.manual_start = true) (d : DateTime) (hd : t.start_date = some d) :
    (processForward s ps cur t).start_date = some d := by
  simp [processForward, forwardStart, determineStart, hexc, hman, hd]

/-- A backward step keeps the pinned start date of a non-excluded task. -/
theorem processBackward_start_of_pin (s : Scheduler) (pe : DateTime)
    (sm : String → List String) (cur : List Task) (t : Task)
    (hexc : t.excluded = false) (hman : t.manual_start = true)
    (d : DateTime) (hd : t.start_date = some d) :
    (processBackward s pe sm cur t).start_date = some d := by
  simp [processBackward, hexc, hman, hd]

/-- Forward pass, pin preservation at one index (non-excluded task with a
manual start date). -/
theorem calculate_dates_pin_start (s : Scheduler) (tasks : List Task)
    (ps : DateTime) (j : Nat) (t : Task) (hj : tasks[j]? = some t)
    (hexc : t.excluded = false) (hman : t.manual_start = true)
    (hsd : t.start_date.isSome = true) :
    ((s.calculate_dates tasks ps)[j]?).map Task.start_date = some t.start_date := by
  obtain ⟨d, hd⟩ := Option.isSome_iff_exists.mp hsd
  have hlt : j < tasks.length := (List.getElem?_eq_some.mp hj).1
  have hn : j < (tasks.map clearDates).length := by simpa using hlt
  have hclr : (tasks.map clearDates)[j]? = some (clearDates t) := by
    rw [List.getElem?_map, hj]; rfl
  have hclrst : (clearDates t).start_date = some d := by
    simp [clearDates, hman, hd]
  unfold Scheduler.calculate_dates
  obtain ⟨mid, hmid, hmidj, hmidlen⟩ :=
    foldl_range_exists_mid (fun cur i => stepForward s ps cur i)
      (fun cur i k hk => stepForward_getElem_ne s ps cur i k hk)
      (fun cur i => stepForward_length s ps cur i)
      (tasks.map clearDates).length j hn (tasks.map clearDates)
  rw [hmid, stepForward_getElem_self s ps mid j (clearDates t) (hmidj.trans hclr)]
  show some (processForward s ps mid (clearDates t)).start_date = some t.start_date
  rw [processForward_start_of_pin s ps mid (clearDates t) hexc hman d hclrst, hd]

/-- Backward pass, pin preservation at one index (non-excluded task with a
manual start date). -/
theorem calculate_dates_backward_pin_start (s : Scheduler) (tasks : List Task)
    (pe : DateTime) (j : Nat) (t : Task) (hj : tasks[j]? = some t)
    (hexc : t.excluded = false) (hman : t.manual_start = true)
    (hsd : t.start_date.isSome = true) :
    ((s.calculate_dates_backward tasks pe)[j]?).map Task.start_date = some t.start_date := by
  obtain ⟨d, hd⟩ := Option.isSome_iff_exists.mp hsd
  have hlt : j < tasks.length := (List.getElem?_eq_some.mp hj).1
  have hn : j < (tasks.map clearDates).length := by simpa using hlt
  have hclr : (tasks.map clearDates)[j]? = some (clearDates t) := by
    rw [List.getElem?_map, hj]; rfl
  have hclrst : (clearDates t).start_date = some d := by
    simp [clearDates, hman, hd]
  unfold Scheduler.calculate_dates_backward
  obtain ⟨mid, hmid, hmidj, hmidlen⟩ :=
    foldl_rev_range_exists_mid
      (fun cur i => stepBackward s pe (successorsOf (tasks.map clearDates)) cur i)
      (fun cur i k hk => stepBackward_getElem_ne s pe _ cur i k hk)
      (fun cur i => stepBackward_length s pe _ cur i)
      (tasks.map clearDates).length j hn (tasks.map clearDates)
  rw [hmid, stepBackward_getElem_self s pe _ mid j (clearDates t)
    ((hmidj j (Nat.le_refl j)).trans hclr)]
  show some (processBackward s pe (successorsOf (tasks.map clearDates)) mid
      (clearDates t)).start_date = some t.start_date
  rw [processBackward_start_of_pin s pe _ mid (clearDates t) hexc hman d hclrst, hd]

/-- `dtLe` from a day inequality with equal times-of-day. -/
theorem dtLe_of_day_le_tod_eq (a b : DateTime) (h1 : a.day ≤ b.day)
    (h2 : b.tod = a.tod) : dtLe a b = true := by
  unfold dtLe
  by_cases h : a.day < b.day
  · simp [h]
  · have hday : a.day = b.day := by omega
    simp [hday, h2]

/-- The `add_workdays` loop walks forward in time and keeps the
time-of-day. -/
theorem addWorkdaysLoop_day_ge (s : Scheduler) (fuel : Nat) :
    ∀ (current : DateTime) (added days : Int),
      current.day ≤ (addWorkdaysLoop s fuel current added days).day ∧
        (addWorkdaysLoop s fuel current added days).tod = current.tod := by
  induction fuel with
  | zero => exact fun current added days => ⟨Int.le_refl _, rfl⟩
  | succ f ih =>
    intro current added days
    rw [show addWorkdaysLoop s (f + 1) current added days
        = if added < days then
            addWorkdaysLoop s f (addDays current 1)
              (if s.is_workday (addDays current 1) then added + 1 else added) days
          else current from rfl]
    by_cases h : added < days
    · rw [if_pos h]
      obtain ⟨h1, h2⟩ := ih (addDays current 1)
        (if s.is_workday (addDays current 1) then added + 1 else added) days
      refine ⟨?_, ?_⟩
      · have hd : (addDays current 1).day = current.day + 1 := rfl
        omega
      · rw [h2]
        rfl
    · rw [if_neg h]
      exact ⟨Int.le_refl _, rfl⟩

/-- The `subtract_workdays` loop walks backward in time and keeps the
time-of-day. -/
theorem subWorkdaysLoop_day_le (s : Scheduler) (fuel : Nat) :
    ∀ (current : DateTime) (subtracted days : Int),
      (subWorkdaysLoop s fuel current subtracted days).day ≤ current.day ∧
        (subWorkdaysLoop s fuel current subtracted days).tod = current.tod := by
  induction fuel with
  | zero => exact fun current subtracted days => ⟨Int.le_refl _, rfl⟩
  | succ f ih =>
    intro current subtracted days
    rw [show subWorkdaysLoop s (f + 1) current subtracted days
        = if subtracted < days then
            subWorkdaysLoop s f (addDays current (-1))
              (if s.is_workday (addDays current (-1)) then subtracted + 1 else subtracted) days
          else current from rfl]
    by_cases h : subtracted < days
    · rw [if_pos h]
      obtain ⟨h1, h2⟩ := ih (addDays current (-1))
        (if s.is_workday (addDays current (-1)) then subtracted + 1 else subtracted) days
      refine ⟨?_, ?_⟩
      · have hd : (addDays current (-1)).day = current.day + (-1) := rfl
        omega
      · rw [h2]
        rfl
    · rw [if_neg h]
      exact ⟨Int.le_refl _, rfl⟩

/-- `add_workdays` never returns a date before its input. -/
theorem add_workdays_ge (s : Scheduler) (d : DateTime) (n : Int) :
    dtLe d (s.add_workdays d n) = true := by
  unfold Scheduler.add_workdays
  by_cases h : n ≤ 0
  · rw [if_pos h]
    exact dtLe_of_day_le_tod_eq d d (Int.le_refl _) rfl
  · rw [if_neg h]
    by_cases hf : !s.exclude_weekends && !s.exclude_holidays
    · rw [if_pos hf]
      exact dtLe_of_day_le_tod_eq _ _ (by show d.day ≤ d.day + (n - 1); omega) rfl
    · rw [if_neg hf]
      obtain ⟨h1, h2⟩ := addWorkdaysLoop_day_ge s (s.loopFuel n) d
        (if s.is_workday d then 1 else 0) n
      exact dtLe_of_day_le_tod_eq _ _ h1 h2

/-- `subtract_workdays` never returns a date after its input. -/
theorem subtract_workdays_le (s : Scheduler) (d : DateTime) (n : Int) :
    dtLe (s.subtract_workdays d n) d = true := by
  unfold Scheduler.subtract_workdays
  by_cases h : n ≤ 0
  · rw [if_pos h]
    exact dtLe_of_day_le_tod_eq d d (Int.le_refl _) rfl
  · rw [if_neg h]
    by_cases hf : !s.exclude_weekends && !s.exclude_holidays
    · rw [if_pos hf]
      refine dtLe_of_day_le_tod_eq _ _ ?_ rfl
      show d.day + -(n - 1) ≤ d.day
      omega
    · rw [if_neg hf]
      obtain ⟨h1, h2⟩ := subWorkdaysLoop_day_le s (s.loopFuel n) d
        (if s.is_workday d then 1 else 0) n
      exact dtLe_of_day_le_tod_eq _ _ h1 h2.symm

theorem processForward_excluded (s : Scheduler) (ps : DateTime) (cur : List Task)
    (t : Task) : (processForward s ps cur t).excluded = t.excluded := by
  unfold processForward
  split <;> rfl

theorem processForward_manual_end (s : Scheduler) (ps : DateTime) (cur : List Task)
    (t : Task) : (processForward s ps cur t).manual_end = t.manual_end := by
  unfold processForward
  split <;> rfl

theorem processBackward_excluded (s : Scheduler) (pe : DateTime)
    (sm : String → List String) (cur : List Task) (t : Task) :
    (processBackward s pe sm cur t).excluded = t.excluded := by
  unfold processBackward
  split <;> rfl

theorem processBackward_manual_start (s : Scheduler) (pe : DateTime)
    (sm : String → List String) (cur : List Task) (t : Task) :
    (processBackward s pe sm cur t).manual_start = t.manual_start := by
  unfold processBackward
  split <;> rfl

/-- A forward step gives a non-excluded task without a kept manual end a
start and an end with `start ≤ end` (the end is `add_workdays` from the
start it just assigned). -/
theorem processForward_end_ge_start (s : Scheduler) (ps : DateTime)
    (cur : List Task) (t : Task) (hexc : t.excluded = false)
    (hme : t.manual_end = false) :
    ∃ sd ed, (processForward s ps cur t).start_date = some sd ∧
      (processForward s ps cur t).end_date = some ed ∧ dtLe sd ed = true := by
  simp only [processForward, forwardEnd, hexc, Bool.false_eq_true, if_false, hme,
    Bool.false_and, Option.isSome_none]
  refine ⟨_, _, rfl, rfl, ?_⟩
  exact add_workdays_ge s _ t.duration

/-- A backward step gives a non-excluded task without a kept manual start a
start and an end with `start ≤ end` (the start is `subtract_workdays` from
the end it just assigned). -/
theorem processBackward_end_ge_start (s : Scheduler) (pe : DateTime)
    (sm : String → List String) (cur : List Task) (t : Task)
    (hexc : t.excluded = false) (hms : t.manual_start = false) :
    ∃ sd ed, (processBackward s pe sm cur t).start_date = some sd ∧
      (processBackward s pe sm cur t).end_date = some ed ∧ dtLe sd ed = true := by
  simp only [processBackward, hexc, Bool.false_eq_true, if_false, hms, Bool.false_and,
    Option.isSome_none]
  refine ⟨_, _, rfl, rfl, ?_⟩
  exact subtract_workdays_le s _ t.duration

theorem calculate_dates_length (s : Scheduler) (tasks : List Task) (ps : DateTime) :
    (s.calculate_dates tasks ps).length = tasks.length := by
  unfold Scheduler.calculate_dates
  rw [foldl_steps_length (fun cur i => stepForward s ps cur i)
    (fun cur i => stepForward_length s ps cur i)]
  simp

theorem calculate_dates_backward_length (s : Scheduler) (tasks : List Task)
    (pe : DateTime) :
    (s.calculate_dates_backward tasks pe).length = tasks.length := by
  unfold Scheduler.calculate_dates_backward
  rw [foldl_steps_length (fun cur i => stepBackward s pe (successorsOf (tasks.map clearDates)) cur i)
    (fun cur i => stepBackward_length s pe _ cur i)]
  simp

/-- Every entry of the forward pass output is `processForward` of the cleared
input task at that index, taken against some intermediate state. -/
theorem calculate_dates_getElem_eq_process (s : Scheduler) (tasks : List Task)
    (ps : DateTime) (j : Nat) (hj : j < tasks.length) :
    ∃ mid t0, tasks[j]? = some t0 ∧
      (s.calculate_dates tasks ps)[j]? = some (processForward s ps mid (clearDates t0)) := by
  have hn : j < (tasks.map clearDates).length := by simpa using hj
  obtain ⟨mid, hmid, hmidj, hmidlen⟩ :=
    foldl_range_exists_mid (fun cur i => stepForward s ps cur i)
      (fun cur i k hk => stepForward_getElem_ne s ps cur i k hk)
      (fun cur i => stepForward_length s ps cur i)
      (tasks.map clearDates).length j hn (tasks.map clearDates)
  refine ⟨mid, tasks[j], List.getElem?_eq_getElem hj, ?_⟩
  unfold Scheduler.calculate_dates
  rw [hmid]
  exact stepForward_getElem_self s ps mid j (clearDates tasks[j])
    (by rw [hmidj, List.getElem?_map, List.getElem?_eq_getElem hj]; rfl)

/-- Every entry of the backward pass output is `processBackward` of the
cleared input task at that index, taken against some intermediate state. -/
theorem calculate_dates_backward_getElem_eq_process (s : Scheduler)
    (tasks : List Task) (pe : DateTime) (j : Nat) (hj : j < tasks.length) :
    ∃ mid t0, tasks[j]? = some t0 ∧
      (s.calculate_dates_backward tasks pe)[j]?
        = some (processBackward s pe (successorsOf (tasks.map clearDates)) mid (clearDates t0)) := by
  have hn : j < (tasks.map clearDates).length := by simpa using hj
  obtain ⟨mid, hmid, hmidj, hmidlen⟩ :=
    foldl_rev_range_exists_mid
      (fun cur i => stepBackward s pe (successorsOf (tasks.map clearDates)) cur i)
      (fun cur i k hk => stepBackward_getElem_ne s pe _ cur i k hk)
      (fun cur i => stepBackward_length s pe _ cur i)
      (tasks.map clearDates).length j hn (tasks.map clearDates)
  refine ⟨mid, tasks[j], List.getElem?_eq_getElem hj, ?_⟩
  unfold Scheduler.calculate_dates_backward
  rw [hmid]
  exact stepBackward_getElem_self s pe _ mid j (clearDates tasks[j])
    (by rw [hmidj j (Nat.le_refl j), List.getElem?_map, List.getElem?_eq_getElem hj]; rfl)

/-- Membership in a stable insertion. -/
theorem mem_insertByLt (lt : α → α → Bool) (x a : α) :
    ∀ l : List α, x ∈ insertByLt lt a l ↔ x = a ∨ x ∈ l := by
  intro l
  induction l with
  | nil => simp [insertByLt]
  | cons y ys ih =>
    unfold insertByLt
    by_cases h : lt y a
    · rw [if_pos h]
      simp only [List.mem_cons, ih]
      tauto
    · rw [if_neg h]
      simp

/-- Membership is preserved by the stable sort. -/
theorem mem_sortByLt (lt : α → α → Bool) (x : α) :
    ∀ l : List α, x ∈ sortByLt lt l ↔ x ∈ l := by
  intro l
  induction l with
  | nil => simp [sortByLt]
  | cons y ys ih =>
    unfold sortByLt
    rw [mem_insertByLt, ih]
    simp

/-- The fold of `_get_previous_day_progress` keeps its accumulator when no
record qualifies. -/
theorem foldl_prev_progress_const (day : Int) :
    ∀ (l : List ProgressRecord) (init : Int),
      (∀ r ∈ l, ¬(r.record_date.day < day)) →
      l.foldl (fun acc r => if r.record_date.day < day then r.progress else acc) init = init := by
  intro l
  induction l with
  | nil => intro init _; rfl
  | cons r rest ih =>
    intro init h
    rw [List.foldl_cons, if_neg (h r (List.mem_cons_self r rest))]
    exact ih init (fun x hx => h x (List.mem_cons_of_mem r hx))

/-- `_get_previous_day_progress` returns `0` when the task has no record on
an earlier calendar day. -/
theorem getPreviousDayProgress_eq_zero (records : List ProgressRecord)
    (tno : String) (day : Int)
    (h : ∀ r ∈ records, r.task_no = tno → ¬(r.record_date.day < day)) :
    getPreviousDayProgress records tno day = 0 := by
  unfold getPreviousDayProgress
  apply foldl_prev_progress_const
  intro r hr
  rw [get_task_history, mem_sortByLt] at hr
  have hmem := List.mem_filter.mp hr
  exact h r hmem.1 (by simpa using hmem.2)

theorem applyStatusDates_progress_history (t : Task) (st : TaskStatus) (d : DateTime) :
    (applyStatusDates t st d).progress_history = t.progress_history := by
  unfold applyStatusDates
  split_ifs <;> rfl

/-! ## Helper lemmas: the dependency topological sort -/

theorem csvTaskMap_eq_some (tasks : List Task) (tno : String) (t : Task)
    (h : csvTaskMap tasks tno = some t) :
    t ∈ tasks ∧ t.task_no = tno ∧ t.task_no ≠ "" := by
  unfold csvTaskMap at h
  have hmem := List.mem_of_find?_eq_some h
  have hp := List.find?_some h
  simp only [decide_eq_true_eq] at hp
  rw [List.mem_reverse] at hmem
  have hf := List.mem_filter.mp hmem
  exact ⟨hf.1, hp, by simpa using hf.2⟩

theorem csvTaskMap_isSome_of_mem_keys (tasks : List Task) (tno : String)
    (h : tno ∈ csvKeys tasks) : (csvTaskMap tasks tno).isSome = true := by
  rcases List.mem_map.mp h with ⟨t, ht, rfl⟩
  unfold csvTaskMap
  rw [Option.isSome_iff_ne_none]
  intro hnone
  have hx := List.find?_eq_none.mp hnone t (by rw [List.mem_reverse]; exact ht)
  simp at hx

theorem mem_keys_of_csvTaskMap_some (tasks : List Task) (tno : String) (t : Task)
    (h : csvTaskMap tasks tno = some t) : tno ∈ csvKeys tasks := by
  obtain ⟨hmem, heq, hne⟩ := csvTaskMap_eq_some tasks tno t h
  subst heq
  exact List.mem_map.mpr ⟨t, List.mem_filter.mpr ⟨hmem, by simpa using hne⟩, rfl⟩

/-- Under globally distinct task numbers, the task map sends each task's own
number back to the task. -/
theorem csvTaskMap_self (tasks : List Task) (hnd : (tasks.map Task.task_no).Nodup)
    (t : Task) (ht : t ∈ tasks) (hne : t.task_no ≠ "") :
    csvTaskMap tasks t.task_no = some t := by
  have hk : t.task_no ∈ csvKeys tasks :=
    List.mem_map.mpr ⟨t, List.mem_filter.mpr ⟨ht, by simpa using hne⟩, rfl⟩
  obtain ⟨x, hx⟩ := Option.isSome_iff_exists.mp (csvTaskMap_isSome_of_mem_keys tasks _ hk)
  obtain ⟨hx1, hx2, _⟩ := csvTaskMap_eq_some tasks _ x hx
  have hxt : x = t := List.inj_on_of_nodup_map hnd hx1 ht (by rw [hx2])
  rw [hx, hxt]

theorem finishVisit_eq (tasks : List Task) (tno : String) (t : Task)
    (st2 : VisitState) (ht : csvTaskMap tasks tno = some t) :
    finishVisit tasks tno st2 =
      { visited := tno :: st2.visited, temp := st2.temp.erase tno
        sorted := st2.sorted ++ [t] } := by
  unfold finishVisit
  rw [ht]

/-- Behaviour of one `visit` call with sufficient fuel: the in-progress set
is restored, the invariant is preserved, the visited set grows only by
numbers outside the in-progress set, and the visited number ends up visited
unless it was already in progress (a cycle edge, which is abandoned). -/
theorem visit_spec (tasks : List Task) :
    ∀ (fuel : Nat) (st : VisitState) (tno : String),
      tno ∈ csvKeys tasks →
      st.temp.Nodup →
      (∀ n ∈ st.temp, n ∈ csvKeys tasks) →
      (csvKeys tasks).length + 1 ≤ fuel + st.temp.length →
      csvInv tasks st →
      (∀ n ∈ st.visited, n ∉ st.temp) →
      (visit tasks fuel st tno).temp = st.temp ∧
        csvInv tasks (visit tasks fuel st tno) ∧
        (∃ new, (visit tasks fuel st tno).visited = new ++ st.visited ∧
          ∀ n ∈ new, n ∉ st.temp) ∧
        (∀ n ∈ (visit tasks fuel st tno).visited, n ∉ st.temp) ∧
        (tno ∈ (visit tasks fuel st tno).visited ∨ tno ∈ st.temp) := by
  intro fuel
  induction fuel with
  | zero =>
    intro st tno hk htnd htsub hfuel hinv hdisj
    exfalso
    have hle : st.temp.length ≤ (csvKeys tasks).length :=
      (List.subperm_of_subset htnd (fun a ha => htsub a ha)).length_le
    omega
  | succ f ih =>
    intro st tno hk htnd htsub hfuel hinv hdisj
    by_cases h1 : tno ∈ st.temp
    · rw [show visit tasks (f + 1) st tno = st from by unfold visit; rw [if_pos h1]]
      exact ⟨rfl, hinv, ⟨[], rfl, by simp⟩, hdisj, Or.inr h1⟩
    · by_cases h2 : tno ∈ st.visited
      · rw [show visit tasks (f + 1) st tno = st from by
          unfold visit; rw [if_neg h1, if_pos h2]]
        exact ⟨rfl, hinv, ⟨[], rfl, by simp⟩, hdisj, Or.inl h2⟩
      · have hfold : ∀ (deps : List String) (stt : VisitState),
            stt.temp = tno :: st.temp →
            csvInv tasks stt →
            (∀ n ∈ stt.visited, n ∉ tno :: st.temp) →
            (deps.foldl (fun acc dep =>
                if (csvTaskMap tasks dep).isSome then visit tasks f acc dep else acc) stt).temp
                = tno :: st.temp ∧
              csvInv tasks (deps.foldl (fun acc dep =>
                if (csvTaskMap tasks dep).isSome then visit tasks f acc dep else acc) stt) ∧
              (∃ new, (deps.foldl (fun acc dep =>
                  if (csvTaskMap tasks dep).isSome then visit tasks f acc dep else acc)
                    stt).visited = new ++ stt.visited ∧
                ∀ n ∈ new, n ∉ tno :: st.temp) ∧
              (∀ n ∈ (deps.foldl (fun acc dep =>
                  if (csvTaskMap tasks dep).isSome then visit tasks f acc dep else acc)
                    stt).visited, n ∉ tno :: st.temp) := by
          intro deps
          induction deps with
          | nil =>
            intro stt hteq hinv2 hdisj2
            exact ⟨hteq, hinv2, ⟨[], rfl, by simp⟩, hdisj2⟩
          | cons dep rest ihd =>
            intro stt hteq hinv2 hdisj2
            rw [List.foldl_cons]
            by_cases hdep : (csvTaskMap tasks dep).isSome = true
            · rw [if_pos hdep]
              have hdepk : dep ∈ csvKeys tasks := by
                obtain ⟨x, hx⟩ := Option.isSome_iff_exists.mp hdep
                exact mem_keys_of_csvTaskMap_some tasks dep x hx
              have htnd2 : stt.temp.Nodup := by
                rw [hteq]
                exact List.nodup_cons.mpr ⟨h1, htnd⟩
              have htsub2 : ∀ n ∈ stt.temp, n ∈ csvKeys tasks := by
                rw [hteq]
                intro n hn
                rcases List.mem_cons.mp hn with h | h
                · subst h; exact hk
                · exact htsub n h
              have hfuel2 : (csvKeys tasks).length + 1 ≤ f + stt.temp.length := by
                rw [hteq]
                simp only [List.length_cons]
                omega
              obtain ⟨ht1, ht2, ⟨new1, hnew1, hnew1d⟩, ht4, _⟩ :=
                ih stt dep hdepk htnd2 htsub2 hfuel2 hinv2
                  (fun n hn => by rw [hteq]; exact hdisj2 n hn)
              obtain ⟨hr1, hr2, ⟨new2, hnew2, hnew2d⟩, hr4⟩ :=
                ihd (visit tasks f stt dep) (ht1.trans hteq) ht2
                  (fun n hn => by
                    have := ht4 n hn
                    rwa [hteq] at this)
              refine ⟨hr1, hr2, ⟨new2 ++ new1, ?_, ?_⟩, hr4⟩
              · rw [hnew2, hnew1, List.append_assoc]
              · intro n hn
                rcases List.mem_append.mp hn with h | h
                · exact hnew2d n h
                · exact fun hc => hnew1d n h (by rw [hteq]; exact hc)
            · rw [if_neg hdep]
              exact ihd stt hteq hinv2 hdisj2
        obtain ⟨t, ht⟩ :=
          Option.isSome_iff_exists.mp (csvTaskMap_isSome_of_mem_keys tasks tno hk)
        obtain ⟨httask, htno, htne⟩ := csvTaskMap_eq_some tasks tno t ht
        obtain ⟨hf1, hf2, ⟨new, hnew, hnewd⟩, hf4⟩ := hfold (depsMap tasks tno)
          { st with temp := tno :: st.temp } rfl hinv
          (by intro n hn hmem
              rcases List.mem_cons.mp hmem with h | h
              · subst h; exact h2 hn
              · exact hdisj n hn h)
        have hstep : visit tasks (f + 1) st tno =
            if tno ∈ st.temp then st
            else if tno ∈ st.visited then st
            else finishVisit tasks tno ((depsMap tasks tno).foldl
              (fun acc dep => if (csvTaskMap tasks dep).isSome then visit tasks f acc dep else acc)
              { st with temp := tno :: st.temp }) := rfl
        rw [hstep, if_neg h1, if_neg h2]
        rw [finishVisit_eq tasks tno t _ ht]
        have htno_notmem : tno ∉ ((depsMap tasks tno).foldl
            (fun acc dep => if (csvTaskMap tasks dep).isSome then visit tasks f acc dep else acc)
            { st with temp := tno :: st.temp }).visited :=
          fun hmem => hf4 tno hmem (List.mem_cons_self _ _)
        refine ⟨?_, ⟨?_, ?_, ?_, ?_⟩, ⟨tno :: new, ?_, ?_⟩, ?_, Or.inl (List.mem_cons_self _ _)⟩
        · show (_ : VisitState).temp.erase tno = st.temp
          rw [hf1, List.erase_cons_head]
        · exact List.nodup_cons.mpr ⟨htno_notmem, hf2.1⟩
        · intro n hn
          rcases List.mem_cons.mp hn with h | h
          · subst h; exact hk
          · exact hf2.2.1 n h
        · show (_ ++ [t]).map Task.task_no = (tno :: _).reverse
          rw [List.map_append, List.reverse_cons, hf2.2.2.1]
          simp [htno]
        · intro x hx
          rcases List.mem_append.mp hx with h | h
          · exact hf2.2.2.2 x h
          · rw [List.mem_singleton] at h
            subst h
            rw [htno]
            exact ht
        · rw [hnew]
          rfl
        · intro n hn
          rcases List.mem_cons.mp hn with h | h
          · subst h; exact h1
          · exact fun hc => hnewd n h (List.mem_cons_of_mem _ hc)
        · intro n hn
          rcases List.mem_cons.mp hn with h | h
          · subst h; exact h1
          · exact fun hc => hf4 n h (List.mem_cons_of_mem _ hc)

/-- The top-level depth-first loop of `_sort_by_predecessor`: starting from
the empty state, it keeps the invariant and visits the number of every task of
the list that has one. -/
theorem dfs_fold_spec (tasks : List Task) :
    ∀ (l : List Task) (st : VisitState),
      st.temp = [] →
      csvInv tasks st →
      (∀ t ∈ l, t ∈ tasks) →
      ((l.foldl (fun st t =>
          if decide (t.task_no ≠ "") && decide (t.task_no ∉ st.visited) then
            visit tasks (tasks.length + 1) st t.task_no
          else st) st).temp = [] ∧
        csvInv tasks (l.foldl (fun st t =>
          if decide (t.task_no ≠ "") && decide (t.task_no ∉ st.visited) then
            visit tasks (tasks.length + 1) st t.task_no
          else st) st) ∧
        (∃ new, (l.foldl (fun st t =>
            if decide (t.task_no ≠ "") && decide (t.task_no ∉ st.visited) then
              visit tasks (tasks.length + 1) st t.task_no
            else st) st).visited = new ++ st.visited) ∧
        (∀ t ∈ l, t.task_no ≠ "" → t.task_no ∈ (l.foldl (fun st t =>
            if decide (t.task_no ≠ "") && decide (t.task_no ∉ st.visited) then
              visit tasks (tasks.length + 1) st t.task_no
            else st) st).visited)) := by
  have hkeyslen : (csvKeys tasks).length ≤ tasks.length := by
    unfold csvKeys
    rw [List.length_map]
    exact List.length_filter_le _ _
  intro l
  induction l with
  | nil =>
    intro st hteq hinv _
    exact ⟨hteq, hinv, ⟨[], rfl⟩, by simp⟩
  | cons t l ihl =>
    intro st hteq hinv hl
    rw [List.foldl_cons]
    by_cases hc : (decide (t.task_no ≠ "") && decide (t.task_no ∉ st.visited)) = true
    · rw [if_pos hc]
      simp only [Bool.and_eq_true, decide_eq_true_eq] at hc
      have hk : t.task_no ∈ csvKeys tasks :=
        List.mem_map.mpr ⟨t, List.mem_filter.mpr
          ⟨hl t (List.mem_cons_self t l), by simpa using hc.1⟩, rfl⟩
      obtain ⟨hv1, hv2, ⟨new1, hnew1, _⟩, hv4, hv5⟩ :=
        visit_spec tasks (tasks.length + 1) st t.task_no hk
          (by rw [hteq]; exact List.nodup_nil)
          (by rw [hteq]; simp)
          (by rw [hteq]; simp only [List.length_nil]; omega)
          hinv
          (by rw [hteq]; simp)
      have hv5' : t.task_no ∈ (visit tasks (tasks.length + 1) st t.task_no).visited := by
        rcases hv5 with h | h
        · exact h
        · rw [hteq] at h
          cases h
      obtain ⟨hr1, hr2, ⟨new2, hnew2⟩, hr4⟩ :=
        ihl (visit tasks (tasks.length + 1) st t.task_no) (hv1.trans hteq) hv2
          (fun x hx => hl x (List.mem_cons_of_mem _ hx))
      refine ⟨hr1, hr2, ⟨new2 ++ new1, by rw [hnew2, hnew1, List.append_assoc]⟩, ?_⟩
      intro x hx hxne
      rcases List.mem_cons.mp hx with h | h
      · subst h
        rw [hnew2]
        exact List.mem_append_right _ hv5'
      · exact hr4 x h hxne
    · rw [if_neg hc]
      obtain ⟨hr1, hr2, ⟨new2, hnew2⟩, hr4⟩ :=
        ihl st hteq hinv (fun x hx => hl x (List.mem_cons_of_mem _ hx))
      refine ⟨hr1, hr2, ⟨new2, hnew2⟩, ?_⟩
      intro x hx hxne
      rcases List.mem_cons.mp hx with h | h
      · subst h
        simp only [Bool.and_eq_true, decide_eq_true_eq, not_and] at hc
        have hmem : x.task_no ∈ st.visited := by
          by_contra hcon
          exact (hc hxne) hcon
        rw [hnew2]
        exact List.mem_append_right _ hmem
      · exact hr4 x h hxne

/-- The final loop of `_sort_by_predecessor`: when every task with a
non-empty number is already present in the accumulator, the loop appends
exactly the tasks with an empty number, in order. -/
theorem final_fold_spec :
    ∀ (l : List Task) (acc : List Task),
      (∀ t ∈ l, t.task_no ≠ "" → t ∈ acc) →
      l.foldl (fun acc t =>
          if decide (t.task_no = "") || decide (t ∉ acc) then acc ++ [t] else acc) acc
        = acc ++ l.filter (fun t => decide (t.task_no = "")) := by
  intro l
  induction l with
  | nil => intro acc _; simp
  | cons t l ihl =>
    intro acc hacc
    rw [List.foldl_cons]
    by_cases hne : t.task_no = ""
    · rw [if_pos (by simp [hne])]
      rw [ihl (acc ++ [t]) (fun x hx hxne =>
        List.mem_append_left _ (hacc x (List.mem_cons_of_mem _ hx) hxne))]
      rw [List.filter_cons_of_pos (by simp [hne]), List.append_assoc]
      rfl
    · have htacc : t ∈ acc := hacc t (List.mem_cons_self t l) hne
      rw [if_neg (by simp [hne, htacc])]
      rw [ihl acc (fun x hx hxne => hacc x (List.mem_cons_of_mem _ hx) hxne)]
      rw [List.filter_cons_of_neg (by simp [hne])]

/-! ## Helper lemmas: read-equivalence of forward-pass states -/

theorem processForward_schedFields (s : Scheduler) (ps : DateTime)
    (cur : List Task) (t : Task) :
    schedFields (processForward s ps cur t) = schedFields t := by
  unfold processForward
  split <;> rfl

theorem clearDates_schedFields (t : Task) : schedFields (clearDates t) = schedFields t := rfl

/-- A forward step keeps the pinned end date of a non-excluded task. -/
theorem processForward_end_of_pin (s : Scheduler) (ps : DateTime)
    (cur : List Task) (t : Task) (hexc : t.excluded = false)
    (hme : t.manual_end = true) (hsd : t.end_date.isSome = true) :
    (processForward s ps cur t).end_date = t.end_date := by
  simp [processForward, forwardEnd, hexc, hme, hsd]

/-- Fields of the forward-pass output: non-date fields survive, and pinned
dates of non-excluded tasks survive. -/
theorem calculate_dates_fields (s : Scheduler) (tasks : List Task)
    (ps : DateTime) (j : Nat) (t0 : Task) (hx : tasks[j]? = some t0) :
    ∃ tw, (s.calculate_dates tasks ps)[j]? = some tw ∧
      schedFields tw = schedFields t0 ∧
      (t0.manual_start = true → t0.excluded = false → t0.start_date.isSome = true →
        tw.start_date = t0.start_date) ∧
      (t0.manual_end = true → t0.excluded = false → t0.end_date.isSome = true →
        tw.end_date = t0.end_date) := by
  have hjlt : j < tasks.length := (List.getElem?_eq_some.mp hx).1
  obtain ⟨mid, t0', ht0', hout⟩ := calculate_dates_getElem_eq_process s tasks ps j hjlt
  rw [hx] at ht0'
  injection ht0' with ht0'
  subst ht0'
  refine ⟨processForward s ps mid (clearDates t0), hout,
    (processForward_schedFields s ps mid (clearDates t0)).trans (clearDates_schedFields t0),
    ?_, ?_⟩
  · intro hman hexc hsd
    obtain ⟨d, hd⟩ := Option.isSome_iff_exists.mp hsd
    rw [processForward_start_of_pin s ps mid (clearDates t0) hexc hman d
      (by simp [clearDates, hman, hd]), hd]
  · intro hman hexc hsd
    have hce : (clearDates t0).end_date = t0.end_date := by simp [clearDates, hman]
    rw [processForward_end_of_pin s ps mid (clearDates t0) hexc hman (by rw [hce]; exact hsd), hce]

/-- Components of a `schedFields` equality. -/
theorem schedFields_eq_iff (a b : Task) :
    schedFields a = schedFields b ↔
      (a.task_no = b.task_no ∧ a.predecessor = b.predecessor ∧ a.excluded = b.excluded ∧
        a.manual_start = b.manual_start ∧ a.manual_end = b.manual_end ∧
        a.duration = b.duration) := by
  unfold schedFields
  simp only [Prod.mk.injEq]

/-- `SchedEquiv` transfers through `filter` on the exclusion flag. -/
theorem forall₂_filter_excluded {u v : List Task}
    (h : List.Forall₂ SchedEquiv u v) :
    List.Forall₂ (fun a b => SchedEquiv a b ∧ a.excluded = false)
      (u.filter (fun t => !t.excluded)) (v.filter (fun t => !t.excluded)) := by
  induction h with
  | nil => exact List.Forall₂.nil
  | cons hab hrest ih =>
    rename_i a b l₁ l₂
    have hexc : a.excluded = b.excluded := ((schedFields_eq_iff a b).mp hab.1).2.2.1
    by_cases he : a.excluded
    · rw [List.filter_cons_of_neg (by simp [he]), List.filter_cons_of_neg (by simp [← hexc, he])]
      exact ih
    · rw [List.filter_cons_of_pos (by simp [he]),
        List.filter_cons_of_pos (by simp [← hexc, he])]
      have haf : a.excluded = false := by
        revert he
        cases a.excluded <;> simp
      exact List.Forall₂.cons ⟨hab, haf⟩ ih
theorem optTaskRel_isSome {R : Task → Task → Prop} {o₁ o₂ : Option Task}
    (h : OptTaskRel R o₁ o₂) : o₁.isSome = o₂.isSome := by
  rcases h with ⟨h1, h2⟩ | ⟨a, b, h1, h2, _⟩ <;> simp [h1, h2]

theorem optTaskRel_bind_end {o₁ o₂ : Option Task}
    (h : OptTaskRel (fun a b => SchedEquiv a b ∧ a.excluded = false) o₁ o₂) :
    o₁.bind Task.end_date = o₂.bind Task.end_date := by
  rcases h with ⟨h1, h2⟩ | ⟨a, b, h1, h2, hr⟩
  · simp [h1, h2]
  · rw [h1, h2]
    exact hr.1.2 hr.2

/-- `find?` over pointwise-related lists, for predicates the relation
determines, returns related results. -/
theorem find?_optRel {R : Task → Task → Prop} (p q : Task → Bool)
    (hpq : ∀ a b, R a b → p a = q b) :
    ∀ {u v : List Task}, List.Forall₂ R u v → OptTaskRel R (u.find? p) (v.find? q) := by
  intro u v h
  induction h with
  | nil => exact Or.inl ⟨rfl, rfl⟩
  | cons hab hrest ih =>
    rename_i a b l₁ l₂
    by_cases hp : p a = true
    · rw [List.find?_cons_of_pos _ hp, List.find?_cons_of_pos _ (by rw [← hpq a b hab]; exact hp)]
      exact Or.inr ⟨a, b, rfl, rfl, hab⟩
    · rw [List.find?_cons_of_neg _ (by simpa using hp),
        List.find?_cons_of_neg _ (by rw [← hpq a b hab]; simpa using hp)]
      exact ih

/-- The task-map lookup returns related results on read-equivalent states. -/
theorem taskMapFind_equiv {u v : List Task} (h : List.Forall₂ SchedEquiv u v)
    (tno : String) :
    OptTaskRel (fun a b => SchedEquiv a b ∧ a.excluded = false)
      (taskMapFind u tno) (taskMapFind v tno) := by
  unfold taskMapFind
  exact find?_optRel _ _
    (fun a b hab => by rw [((schedFields_eq_iff a b).mp hab.1.1).1])
    (List.forall₂_reverse_iff.mpr (forall₂_filter_excluded h))

/-- `_find_previous_task`'s accumulator walk returns related results on
read-equivalent states. -/
theorem findPrevAux_cons (c t : Task) (rest : List Task) (acc : Option Task) :
    findPrevAux c (t :: rest) acc =
      if t.task_no = c.task_no then acc
      else findPrevAux c rest (if !t.excluded then some t else acc) := rfl

theorem findPrevAux_equiv (cu cv : Task) (hno : cu.task_no = cv.task_no) :
    ∀ {u v : List Task}, List.Forall₂ SchedEquiv u v →
      ∀ {au av : Option Task},
        OptTaskRel (fun a b => SchedEquiv a b ∧ a.excluded = false) au av →
        OptTaskRel (fun a b => SchedEquiv a b ∧ a.excluded = false)
          (findPrevAux cu u au) (findPrevAux cv v av) := by
  intro u v h
  induction h with
  | nil =>
    intro au av ha
    exact ha
  | cons hab hrest ih =>
    intro au av ha
    rename_i a b l₁ l₂
    have hano : a.task_no = b.task_no := ((schedFields_eq_iff a b).mp hab.1).1
    have hexc : a.excluded = b.excluded := ((schedFields_eq_iff a b).mp hab.1).2.2.1
    by_cases hstop : a.task_no = cu.task_no
    · have e1 : findPrevAux cu (a :: l₁) au = au := by
        rw [findPrevAux_cons, if_pos hstop]
      have e2 : findPrevAux cv (b :: l₂) av = av := by
        rw [findPrevAux_cons, if_pos (by rw [← hano, ← hno]; exact hstop)]
      rw [e1, e2]
      exact ha
    · have e1 : findPrevAux cu (a :: l₁) au
          = findPrevAux cu l₁ (if !a.excluded then some a else au) := by
        rw [findPrevAux_cons, if_neg hstop]
      have e2 : findPrevAux cv (b :: l₂) av
          = findPrevAux cv l₂ (if !b.excluded then some b else av) := by
        rw [findPrevAux_cons, if_neg (by rw [← hano, ← hno]; exact hstop)]
      rw [e1, e2]
      apply ih
      by_cases he : a.excluded
      · rw [if_neg (by simp [he]), if_neg (by simp [← hexc, he])]
        exact ha
      · have haf : a.excluded = false := by
          revert he
          cases a.excluded <;> simp
        rw [if_pos (by simp [haf]), if_pos (by simp [← hexc, haf])]
        exact Or.inr ⟨a, b, rfl, rfl, hab, haf⟩

theorem findPrevTask_equiv {u v : List Task} (h : List.Forall₂ SchedEquiv u v)
    (cu cv : Task) (hno : cu.task_no = cv.task_no) :
    OptTaskRel (fun a b => SchedEquiv a b ∧ a.excluded = false)
      (findPrevTask u cu) (findPrevTask v cv) :=
  findPrevAux_equiv cu cv hno h (Or.inl ⟨rfl, rfl⟩)

/-- The no-predecessor fallback computes the same date on read-equivalent
states (for tasks with equal non-date fields and equal start dates). -/
theorem noPredFallback_equiv (s : Scheduler) (ps : DateTime) {u v : List Task}
    (h : List.Forall₂ SchedEquiv u v) (tu tv : Task)
    (hf : schedFields tu = schedFields tv) (hst : tu.start_date = tv.start_date) :
    noPredFallback s ps u tu = noPredFallback s ps v tv := by
  have hno : tu.task_no = tv.task_no := ((schedFields_eq_iff tu tv).mp hf).1
  unfold noPredFallback
  rw [← hst]
  cases hsd : tu.start_date with
  | some d => rfl
  | none =>
    rcases findPrevTask_equiv h tu tv hno with ⟨h1, h2⟩ | ⟨a, b, h1, h2, hr⟩
    · rw [h1, h2]
    · rw [h1, h2]
      show (match a.end_date with
          | some e => nextWorkdayFwd s s.searchFuel (addDays e 1)
          | none => ps)
        = (match b.end_date with
          | some e => nextWorkdayFwd s s.searchFuel (addDays e 1)
          | none => ps)
      rw [hr.1.2 hr.2]

/-- The start-date determination computes the same date on read-equivalent
states. -/
theorem determineStart_equiv (s : Scheduler) (ps : DateTime) {u v : List Task}
    (h : List.Forall₂ SchedEquiv u v) (tu tv : Task)
    (hf : schedFields tu = schedFields tv) (hst : tu.start_date = tv.start_date) :
    determineStart s ps u tu = determineStart s ps v tv := by
  obtain ⟨hno, hpred, hexc, hms, hme, hdur⟩ := (schedFields_eq_iff tu tv).mp hf
  have hsome : (taskMapFind u tu.predecessor).isSome
      = (taskMapFind v tv.predecessor).isSome := by
    rw [← hpred]
    exact optTaskRel_isSome (taskMapFind_equiv h tu.predecessor)
  unfold determineStart
  by_cases h1 : (tu.manual_start && tu.start_date.isSome) = true
  · rw [if_pos h1,
      if_pos (show (tv.manual_start && tv.start_date.isSome) = true from by
        rw [← hms, ← hst]; exact h1),
      hst]
  · rw [if_neg h1,
      if_neg (show ¬(tv.manual_start && tv.start_date.isSome) = true from by
        rw [← hms, ← hst]; exact h1)]
    by_cases h2 : (decide (tu.predecessor ≠ "") && (taskMapFind u tu.predecessor).isSome) = true
    · rw [if_pos h2,
        if_pos (show (decide (tv.predecessor ≠ "") && (taskMapFind v tv.predecessor).isSome)
            = true from by rw [← hsome, ← hpred]; exact h2)]
      have hbind : (taskMapFind u tu.predecessor).bind Task.end_date
          = (taskMapFind v tv.predecessor).bind Task.end_date := by
        rw [← hpred]
        exact optTaskRel_bind_end (taskMapFind_equiv h tu.predecessor)
      rw [← hbind]
    · rw [if_neg h2,
        if_neg (show ¬(decide (tv.predecessor ≠ "") && (taskMapFind v tv.predecessor).isSome)
            = true from by rw [← hsome, ← hpred]; exact h2)]
      exact noPredFallback_equiv s ps h tu tv hf hst

/-- Dates assigned by a forward step to an excluded task. -/
theorem processForward_dates_excluded (s : Scheduler) (ps : DateTime)
    (cur : List Task) (t : Task) (he : t.excluded = true) :
    datesOf (processForward s ps cur t) = (none, none) := by
  unfold processForward
  rw [if_pos he]
  rfl

/-- The start a forward step stores for a non-excluded task. -/
theorem processForward_start_not_excluded (s : Scheduler) (ps : DateTime)
    (cur : List Task) (t : Task) (he : t.excluded = false) :
    (processForward s ps cur t).start_date = some (forwardStart s ps cur t) := by
  unfold processForward
  rw [if_neg (by simp [he])]

/-- The end a forward step stores for a non-excluded task. -/
theorem processForward_end_not_excluded (s : Scheduler) (ps : DateTime)
    (cur : List Task) (t : Task) (he : t.excluded = false) :
    (processForward s ps cur t).end_date = forwardEnd s ps cur t := by
  unfold processForward
  rw [if_neg (by simp [he])]

theorem processForward_manual_start (s : Scheduler) (ps : DateTime) (cur : List Task)
    (t : Task) : (processForward s ps cur t).manual_start = t.manual_start := by
  unfold processForward
  split <;> rfl

theorem processForward_duration (s : Scheduler) (ps : DateTime) (cur : List Task)
    (t : Task) : (processForward s ps cur t).duration = t.duration := by
  unfold processForward
  split <;> rfl

theorem clearDates_start_date (t : Task) :
    (clearDates t).start_date = if t.manual_start then t.start_date else none := rfl

theorem clearDates_end_date (t : Task) :
    (clearDates t).end_date = if t.manual_end then t.end_date else none := rfl

theorem clearDates_manual_start (t : Task) : (clearDates t).manual_start = t.manual_start := rfl

theorem clearDates_manual_end (t : Task) : (clearDates t).manual_end = t.manual_end := rfl

theorem clearDates_duration (t : Task) : (clearDates t).duration = t.duration := rfl

theorem clearDates_excluded (t : Task) : (clearDates t).excluded = t.excluded := rfl

/-- A pinned, present start passes through `forwardStart` unchanged. -/
theorem forwardStart_of_pin (s : Scheduler) (ps : DateTime) (cur : List Task)
    (t : Task) (hms : t.manual_start = true) (d : DateTime)
    (hd : t.start_date = some d) : forwardStart s ps cur t = d := by
  simp [forwardStart, determineStart, hms, hd]

/-- `forwardStart` computes the same date on read-equivalent states. -/
theorem forwardStart_equiv (s : Scheduler) (ps : DateTime) {u v : List Task}
    (h : List.Forall₂ SchedEquiv u v) (tu tv : Task)
    (hf : schedFields tu = schedFields tv) (hst : tu.start_date = tv.start_date) :
    forwardStart s ps u tu = forwardStart s ps v tv := by
  have hms : tu.manual_start = tv.manual_start := ((schedFields_eq_iff tu tv).mp hf).2.2.2.1
  have hDS := determineStart_equiv s ps h tu tv hf hst
  unfold forwardStart
  rw [hms, hDS]

/-- A pinned, present end passes through `forwardEnd` unchanged. -/
theorem forwardEnd_of_pin (s : Scheduler) (ps : DateTime) (cur : List Task)
    (t : Task) (hme : t.manual_end = true) (d : DateTime)
    (hd : t.end_date = some d) : forwardEnd s ps cur t = some d := by
  simp [forwardEnd, hme, hd]

/-- Without a manual end the end is `add_workdays` from the stored start. -/
theorem forwardEnd_not_manual (s : Scheduler) (ps : DateTime) (cur : List Task)
    (t : Task) (hme : t.manual_end = false) :
    forwardEnd s ps cur t = some (s.add_workdays (forwardStart s ps cur t) t.duration) := by
  simp [forwardEnd, hme]

/-- Re-running a forward step on the cleared output of a forward step assigns
the same dates, provided the task has its end date set whenever the end is
manual, and the two surrounding states are read-equivalent. -/
theorem processForward_idem_dates (s : Scheduler) (ps : DateTime)
    {u v : List Task} (h : List.Forall₂ SchedEquiv u v) (t0 : Task)
    (hwfe : t0.manual_end = true → t0.end_date.isSome = true) :
    datesOf (processForward s ps u
        (clearDates (processForward s ps v (clearDates t0)))) =
      datesOf (processForward s ps v (clearDates t0)) := by
  by_cases hexc : t0.excluded = true
  · have he1 : (clearDates t0).excluded = true := hexc
    have he2 : (clearDates (processForward s ps v (clearDates t0))).excluded = true := by
      rw [clearDates_excluded, processForward_excluded]
      exact hexc
    rw [processForward_dates_excluded s ps u _ he2,
      processForward_dates_excluded s ps v _ he1]
  · have hexcf : t0.excluded = false := by
      revert hexc
      cases t0.excluded <;> simp
    have he1 : (clearDates t0).excluded = false := hexcf
    have he2 : (clearDates (processForward s ps v (clearDates t0))).excluded = false := by
      rw [clearDates_excluded, processForward_excluded]
      exact hexcf
    have hms_tu : (clearDates (processForward s ps v (clearDates t0))).manual_start
        = t0.manual_start := by
      rw [clearDates_manual_start, processForward_manual_start, clearDates_manual_start]
    have hme_tu : (clearDates (processForward s ps v (clearDates t0))).manual_end
        = t0.manual_end := by
      rw [clearDates_manual_end, processForward_manual_end, clearDates_manual_end]
    have hdur_tu : (clearDates (processForward s ps v (clearDates t0))).duration
        = t0.duration := by
      rw [clearDates_duration, processForward_duration, clearDates_duration]
    have hfields : schedFields (clearDates (processForward s ps v (clearDates t0)))
        = schedFields (clearDates t0) := by
      rw [clearDates_schedFields, processForward_schedFields]
    have hST : forwardStart s ps u (clearDates (processForward s ps v (clearDates t0)))
        = forwardStart s ps v (clearDates t0) := by
      cases hms : t0.manual_start with
      | true =>
        have htu_start : (clearDates (processForward s ps v (clearDates t0))).start_date
            = some (forwardStart s ps v (clearDates t0)) := by
          rw [clearDates_start_date, processForward_manual_start, clearDates_manual_start,
            hms, if_pos rfl]
          exact processForward_start_not_excluded s ps v _ he1
        exact forwardStart_of_pin s ps u _ (hms_tu.trans hms) _ htu_start
      | false =>
        have htu_start : (clearDates (processForward s ps v (clearDates t0))).start_date
            = none := by
          rw [clearDates_start_date, processForward_manual_start, clearDates_manual_start,
            hms, if_neg (by simp)]
        have htcl_start : (clearDates t0).start_date = none := by
          rw [clearDates_start_date, hms, if_neg (by simp)]
        exact forwardStart_equiv s ps h _ _ hfields (htu_start.trans htcl_start.symm)
    have hED : forwardEnd s ps u (clearDates (processForward s ps v (clearDates t0)))
        = forwardEnd s ps v (clearDates t0) := by
      cases hme : t0.manual_end with
      | true =>
        obtain ⟨e, he⟩ := Option.isSome_iff_exists.mp (hwfe hme)
        have htcl_end : (clearDates t0).end_date = some e := by
          rw [clearDates_end_date, hme, if_pos rfl]
          exact he
        have hRend : forwardEnd s ps v (clearDates t0) = some e :=
          forwardEnd_of_pin s ps v _ (show (clearDates t0).manual_end = true from hme) e htcl_end
        have htu_end : (clearDates (processForward s ps v (clearDates t0))).end_date
            = some e := by
          rw [clearDates_end_date, processForward_manual_end, clearDates_manual_end,
            hme, if_pos rfl, processForward_end_not_excluded s ps v _ he1]
          exact hRend
        rw [hRend]
        exact forwardEnd_of_pin s ps u _ (hme_tu.trans hme) e htu_end
      | false =>
        rw [forwardEnd_not_manual s ps u _ (hme_tu.trans hme),
          forwardEnd_not_manual s ps v _ (show (clearDates t0).manual_end = false from hme),
          hST, hdur_tu, clearDates_duration]
    unfold datesOf
    rw [processForward_start_not_excluded s ps u _ he2,
      processForward_start_not_excluded s ps v _ he1,
      processForward_end_not_excluded s ps u _ he2,
      processForward_end_not_excluded s ps v _ he1,
      hST, hED]

/-- A forward step at an out-of-range index is a no-op. -/
theorem stepForward_none (s : Scheduler) (ps : DateTime) (cur : List Task)
    (i : Nat) (hc : cur[i]? = none) : stepForward s ps cur i = cur := by
  unfold stepForward
  rw [hc]

/-- `calculate_dates` as a fold over the index range of the input list. -/
theorem calculate_dates_eq_fold (s : Scheduler) (l : List Task) (ps : DateTime) :
    s.calculate_dates l ps
      = (List.range l.length).foldl (fun cur i => stepForward s ps cur i)
          (l.map clearDates) := by
  unfold Scheduler.calculate_dates
  rw [List.length_map]

/-- The forward fold never changes the non-date fields of any entry. -/
theorem foldRange_schedFields (s : Scheduler) (ps : DateTime) (init : List Task) :
    ∀ (k j : Nat),
      (((List.range k).foldl (fun cur i => stepForward s ps cur i) init)[j]?).map schedFields
        = (init[j]?).map schedFields := by
  intro k
  induction k with
  | zero => intro j; rfl
  | succ k ih =>
    intro j
    simp only [List.range_succ, List.foldl_append, List.foldl_cons, List.foldl_nil]
    by_cases hjk : j = k
    · subst hjk
      cases hc : ((List.range j).foldl (fun cur i => stepForward s ps cur i) init)[j]? with
      | none =>
        rw [stepForward_none s ps _ j hc]
        exact ih j
      | some t =>
        rw [stepForward_getElem_self s ps _ j t hc, ← ih j, hc]
        simp [processForward_schedFields]
    · rw [stepForward_getElem_ne s ps _ k j hjk]
      exact ih j

/-- If the two forward folds agree on the dates of every already-processed
entry, the full states are read-equivalent: non-date fields agree everywhere
(both sides carry the input's fields), and the end dates of the not yet
processed entries agree because clearing only keeps manual ends, which the
first pass preserved. -/
theorem fold_states_equiv (s : Scheduler) (tasks : List Task) (ps : DateTime)
    (hwf : ∀ t ∈ tasks, t.manual_end = true → t.end_date.isSome = true) (k : Nat)
    (hdates : ∀ j, j < k →
      (((List.range k).foldl (fun cur i => stepForward s ps cur i)
          ((s.calculate_dates tasks ps).map clearDates))[j]?).map datesOf
        = (((List.range k).foldl (fun cur i => stepForward s ps cur i)
            (tasks.map clearDates))[j]?).map datesOf) :
    List.Forall₂ SchedEquiv
      ((List.range k).foldl (fun cur i => stepForward s ps cur i)
        ((s.calculate_dates tasks ps).map clearDates))
      ((List.range k).foldl (fun cur i => stepForward s ps cur i)
        (tasks.map clearDates)) := by
  have hlen1 : ((List.range k).foldl (fun cur i => stepForward s ps cur i)
      ((s.calculate_dates tasks ps).map clearDates)).length = tasks.length := by
    rw [foldl_steps_length _ (fun cur i => stepForward_length s ps cur i),
      List.length_map, calculate_dates_length]
  have hlen2 : ((List.range k).foldl (fun cur i => stepForward s ps cur i)
      (tasks.map clearDates)).length = tasks.length := by
    rw [foldl_steps_length _ (fun cur i => stepForward_length s ps cur i), List.length_map]
  rw [List.forall₂_iff_get]
  refine ⟨by rw [hlen1, hlen2], ?_⟩
  intro i h₁ h₂
  have hi : i < tasks.length := by rw [← hlen2]; exact h₂
  obtain ⟨wi, hwi, hfw, _, hpe⟩ :=
    calculate_dates_fields s tasks ps i tasks[i] (List.getElem?_eq_getElem hi)
  have ha : ((List.range k).foldl (fun cur i => stepForward s ps cur i)
        ((s.calculate_dates tasks ps).map clearDates))[i]?
      = some (((List.range k).foldl (fun cur i => stepForward s ps cur i)
          ((s.calculate_dates tasks ps).map clearDates)).get ⟨i, h₁⟩) :=
    List.getElem?_eq_getElem h₁
  have hb : ((List.range k).foldl (fun cur i => stepForward s ps cur i)
        (tasks.map clearDates))[i]?
      = some (((List.range k).foldl (fun cur i => stepForward s ps cur i)
          (tasks.map clearDates)).get ⟨i, h₂⟩) :=
    List.getElem?_eq_getElem h₂
  have h1 : (((List.range k).foldl (fun cur i => stepForward s ps cur i)
        ((s.calculate_dates tasks ps).map clearDates))[i]?).map schedFields
      = some (schedFields tasks[i]) := by
    rw [foldRange_schedFields s ps ((s.calculate_dates tasks ps).map clearDates) k i,
      List.getElem?_map, hwi]
    simp [clearDates_schedFields, hfw]
  have h2 : (((List.range k).foldl (fun cur i => stepForward s ps cur i)
        (tasks.map clearDates))[i]?).map schedFields = some (schedFields tasks[i]) := by
    rw [foldRange_schedFields s ps (tasks.map clearDates) k i, List.getElem?_map,
      List.getElem?_eq_getElem hi]
    simp [clearDates_schedFields]
  rw [ha] at h1
  rw [hb] at h2
  have hfa := Option.some.inj h1
  have hfb := Option.some.inj h2
  constructor
  · exact hfa.trans hfb.symm
  · intro hexcA
    by_cases hik : i < k
    · have hd := hdates i hik
      rw [ha, hb] at hd
      exact congrArg Prod.snd (Option.some.inj hd)
    · have hnA : ((List.range k).foldl (fun cur i => stepForward s ps cur i)
          ((s.calculate_dates tasks ps).map clearDates))[i]?
          = ((s.calculate_dates tasks ps).map clearDates)[i]? :=
        foldl_steps_getElem_not_mem _
          (fun cur i' j' hj' => stepForward_getElem_ne s ps cur i' j' hj')
          (List.range k) _ i (by simp only [List.mem_range]; omega)
      have hnB : ((List.range k).foldl (fun cur i => stepForward s ps cur i)
          (tasks.map clearDates))[i]? = (tasks.map clearDates)[i]? :=
        foldl_steps_getElem_not_mem _
          (fun cur i' j' hj' => stepForward_getElem_ne s ps cur i' j' hj')
          (List.range k) _ i (by simp only [List.mem_range]; omega)
      have haw : ((s.calculate_dates tasks ps).map clearDates)[i]?
          = some (clearDates wi) := by
        rw [List.getElem?_map, hwi]
        rfl
      have hbt : (tasks.map clearDates)[i]? = some (clearDates tasks[i]) := by
        rw [List.getElem?_map, List.getElem?_eq_getElem hi]
        rfl
      have haeq := Option.some.inj (ha.symm.trans (hnA.trans haw))
      have hbeq := Option.some.inj (hb.symm.trans (hnB.trans hbt))
      rw [haeq, hbeq, clearDates_end_date, clearDates_end_date]
      have hmeq : wi.manual_end = tasks[i].manual_end :=
        ((schedFields_eq_iff wi tasks[i]).mp hfw).2.2.2.2.1
      cases hme : tasks[i].manual_end with
      | false =>
        rw [hmeq, hme]
        simp
      | true =>
        have hsome := hwf tasks[i] (List.getElem_mem hi) hme
        have hexc_t : tasks[i].excluded = false := by
          have h3 : wi.excluded = tasks[i].excluded :=
            ((schedFields_eq_iff wi tasks[i]).mp hfw).2.2.1
          rw [haeq] at hexcA
          rw [← h3]
          exact hexcA
        have hend := hpe hme hexc_t hsome
        rw [hmeq, hme, if_pos rfl, if_pos rfl, hend]

/-- The two forward folds (first pass over the input, second pass over the
cleared output of the first) assign the same dates to every processed
entry, provided every manual end is present in the input. -/
theorem calculate_dates_idem_aux (s : Scheduler) (tasks : List Task) (ps : DateTime)
    (hwf : ∀ t ∈ tasks, t.manual_end = true → t.end_date.isSome = true) :
    ∀ (k : Nat), ∀ (j : Nat), j < k →
      (((List.range k).foldl (fun cur i => stepForward s ps cur i)
          ((s.calculate_dates tasks ps).map clearDates))[j]?).map datesOf
        = (((List.range k).foldl (fun cur i => stepForward s ps cur i)
            (tasks.map clearDates))[j]?).map datesOf := by
  intro k
  induction k with
  | zero => intro j hj; exact absurd hj (Nat.not_lt_zero j)
  | succ k ih =>
    intro j hj
    simp only [List.range_succ, List.foldl_append, List.foldl_cons, List.foldl_nil]
    by_cases hjk : j = k
    · subst hjk
      by_cases hk : j < tasks.length
      · have hA2 : ((List.range j).foldl (fun cur i => stepForward s ps cur i)
              (tasks.map clearDates))[j]? = some (clearDates tasks[j]) := by
          rw [foldl_steps_getElem_not_mem _
              (fun cur i' j' hj' => stepForward_getElem_ne s ps cur i' j' hj')
              (List.range j) _ j (by simp),
            List.getElem?_map, List.getElem?_eq_getElem hk]
          rfl
        have hw : (s.calculate_dates tasks ps)[j]?
            = some (processForward s ps
                ((List.range j).foldl (fun cur i => stepForward s ps cur i)
                  (tasks.map clearDates))
                (clearDates tasks[j])) := by
          rw [calculate_dates_eq_fold,
            foldl_range_getElem_eq_step _
              (fun cur i' j' hj' => stepForward_getElem_ne s ps cur i' j' hj')
              tasks.length j hk (tasks.map clearDates)]
          exact stepForward_getElem_self s ps _ j _ hA2
        have hA1 : ((List.range j).foldl (fun cur i => stepForward s ps cur i)
              ((s.calculate_dates tasks ps).map clearDates))[j]?
            = some (clearDates (processForward s ps
                ((List.range j).foldl (fun cur i => stepForward s ps cur i)
                  (tasks.map clearDates))
                (clearDates tasks[j]))) := by
          rw [foldl_steps_getElem_not_mem _
              (fun cur i' j' hj' => stepForward_getElem_ne s ps cur i' j' hj')
              (List.range j) _ j (by simp),
            List.getElem?_map, hw]
          rfl
        rw [stepForward_getElem_self s ps _ j _ hA1, stepForward_getElem_self s ps _ j _ hA2]
        have hequiv := fold_states_equiv s tasks ps hwf j (fun j' hj' => ih j' hj')
        have hidem := processForward_idem_dates s ps hequiv tasks[j]
          (hwf tasks[j] (List.getElem_mem hk))
        simpa using hidem
      · have hn1 : (stepForward s ps
              ((List.range j).foldl (fun cur i => stepForward s ps cur i)
                ((s.calculate_dates tasks ps).map clearDates)) j)[j]? = none := by
          apply List.getElem?_eq_none
          rw [stepForward_length,
            foldl_steps_length _ (fun cur i => stepForward_length s ps cur i),
            List.length_map, calculate_dates_length]
          omega
        have hn2 : (stepForward s ps
              ((List.range j).foldl (fun cur i => stepForward s ps cur i)
                (tasks.map clearDates)) j)[j]? = none := by
          apply List.getElem?_eq_none
          rw [stepForward_length,
            foldl_steps_length _ (fun cur i => stepForward_length s ps cur i),
            List.length_map]
          omega
        rw [hn1, hn2]
    · rw [stepForward_getElem_ne s ps _ k j hjk, stepForward_getElem_ne s ps _ k j hjk]
      exact ih j (by omega)

/-! ## Claim C4: idempotence of the forward pass -/

/-- Counterexample to the unconditional claim C4: a task with
`manual_end = True` but no end date set breaks idempotence.  The first pass
computes an end date for it; the second pass keeps that date as a manual pin,
which changes what a forward reference to the task reads, shifting the dates
of the referring task. -/
theorem c4_counterexample :
    ¬ (∀ (s : Scheduler) (tasks : List Task) (ps : DateTime),
        (s.calculate_dates (s.calculate_dates tasks ps) ps).map datesOf
          = (s.calculate_dates tasks ps).map datesOf) := by
  intro hall
  exact absurd
    (hall ⟨false, false, []⟩
      [mkTask "1" 1 "2", { mkTask "2" 1 "" with manual_end := true }] (dt 0))
    (by decide)

/-- **C4** (corrected): `calculate_dates` is idempotent on the start and end
dates for every task list in which each task with `manual_end = True` has an
end date set, for every project start and calendar configuration: a second
invocation on the result of the first, with the same project start,
reproduces every task's dates. -/
theorem c4_forward_idempotent_of_manual_ends_present (s : Scheduler)
    (tasks : List Task) (ps : DateTime)
    (hwf : ∀ t ∈ tasks, t.manual_end = true → t.end_date.isSome = true) :
    (s.calculate_dates (s.calculate_dates tasks ps) ps).map datesOf
      = (s.calculate_dates tasks ps).map datesOf := by
  apply List.ext_getElem?
  intro j
  rw [List.getElem?_map, List.getElem?_map]
  by_cases hj : j < tasks.length
  · have haux := calculate_dates_idem_aux s tasks ps hwf tasks.length j hj
    have e1 : s.calculate_dates (s.calculate_dates tasks ps) ps
        = (List.range tasks.length).foldl (fun cur i => stepForward s ps cur i)
          ((s.calculate_dates tasks ps).map clearDates) := by
      rw [calculate_dates_eq_fold, calculate_dates_length]
    rw [← e1, ← calculate_dates_eq_fold s tasks ps] at haux
    exact haux
  · have h1 : (s.calculate_dates (s.calculate_dates tasks ps) ps)[j]? = none := by
      apply List.getElem?_eq_none
      rw [calculate_dates_length, calculate_dates_length]
      omega
    have h2 : (s.calculate_dates tasks ps)[j]? = none := by
      apply List.getElem?_eq_none
      rw [calculate_dates_length]
      omega
    rw [h1, h2]

/-- Witness: the corrected C4 theorem applied to a two-task list with a
chained task and a pinned (present) manual end. -/
theorem c4_forward_idempotent_of_manual_ends_present_witness :
    (∀ t ∈ [mkTask "1" 2 "",
        { mkTask "2" 1 "1" with manual_end := true, end_date := some (dt 9) }],
      t.manual_end = true → t.end_date.isSome = true) ∧
      ((⟨false, false, []⟩ : Scheduler).calculate_dates
          ((⟨false, false, []⟩ : Scheduler).calculate_dates
            [mkTask "1" 2 "",
              { mkTask "2" 1 "1" with manual_end := true, end_date := some (dt 9) }]
            (dt 0)) (dt 0)).map datesOf
        = ((⟨false, false, []⟩ : Scheduler).calculate_dates
            [mkTask "1" 2 "",
              { mkTask "2" 1 "1" with manual_end := true, end_date := some (dt 9) }]
            (dt 0)).map datesOf :=
  ⟨by decide, c4_forward_idempotent_of_manual_ends_present ⟨false, false, []⟩
    [mkTask "1" 2 "",
      { mkTask "2" 1 "1" with manual_end := true, end_date := some (dt 9) }]
    (dt 0) (by decide)⟩

/-! ## Claim C7: holiday classification -/

/-- C7, counterexample.  The claim predicts that with `exclude_holidays` set,
`is_workday d` is `False` exactly when some holiday falls on the same calendar
day as `d`, time-of-day ignored.  With the single holiday `datetime(day 3,
midnight)` and `d` = day 3 at a non-midnight time, a holiday falls on `d`'s
calendar day, yet `is_workday d = true`: the source tests `date in
self.holidays`, which is full `datetime` equality, not calendar-day
equality. -/
theorem c7_counterexample :
    ¬(((⟨false, true, [⟨3, 0⟩]⟩ : Scheduler).is_workday ⟨3, 1⟩ = false) ↔
      ∃ h ∈ ([⟨3, 0⟩] : List DateTime), h.day = (⟨3, 1⟩ : DateTime).day) := by
  decide

/-- C7, amended: with `exclude_holidays` set, `is_workday d` returns `False`
exactly when `d` itself — calendar day and time-of-day — is a member of the
holiday set, in addition to the weekend rule when `exclude_weekends` is
set. -/
theorem c7_holiday_exact_membership (s : Scheduler) (d : DateTime)
    (hh : s.exclude_holidays = true) :
    s.is_workday d = false ↔
      ((s.exclude_weekends = true ∧ d.weekday ≥ 5) ∨ d ∈ s.holidays) := by
  unfold Scheduler.is_workday
  by_cases hw : s.exclude_weekends <;> by_cases hwk : d.weekday ≥ 5 <;>
    by_cases hmem : d ∈ s.holidays <;> simp [hw, hwk, hmem, hh]

/-- C7, witness for the amended theorem at a concrete scheduler and date. -/
theorem c7_holiday_exact_membership_witness :
    (⟨true, true, [⟨5, 0⟩]⟩ : Scheduler).is_workday ⟨5, 0⟩ = false ↔
      (((⟨true, true, [⟨5, 0⟩]⟩ : Scheduler).exclude_weekends = true ∧
          (⟨5, 0⟩ : DateTime).weekday ≥ 5) ∨
        (⟨5, 0⟩ : DateTime) ∈ (⟨true, true, [⟨5, 0⟩]⟩ : Scheduler).holidays) :=
  c7_holiday_exact_membership ⟨true, true, [⟨5, 0⟩]⟩ ⟨5, 0⟩ rfl

/-! ## Claim C8: workday stepping boundary behaviour -/

/-- C8: `add_workdays` and `subtract_workdays` are no-ops for `n ≤ 0`, and
with no exclusions active `add_workdays d n = d + (n - 1)` days for
`n ≥ 1`. -/
theorem c8_workday_stepping_boundary :
    (∀ (s : Scheduler) (d : DateTime) (n : Int), n ≤ 0 →
        s.add_workdays d n = d ∧ s.subtract_workdays d n = d) ∧
    (∀ (s : Scheduler) (d : DateTime) (n : Int),
        s.exclude_weekends = false → s.exclude_holidays = false → 1 ≤ n →
        s.add_workdays d n = addDays d (n - 1)) := by
  refine ⟨fun s d n h => ⟨?_, ?_⟩, fun s d n hw hh hn => ?_⟩
  · simp [Scheduler.add_workdays, h]
  · simp [Scheduler.subtract_workdays, h]
  · have h0 : ¬(n ≤ 0) := by omega
    simp [Scheduler.add_workdays, hw, hh, h0]

/-- C8, witness at a concrete scheduler, date and day counts. -/
theorem c8_workday_stepping_boundary_witness :
    ((⟨false, false, []⟩ : Scheduler).add_workdays ⟨0, 0⟩ (-1) = ⟨0, 0⟩ ∧
      (⟨false, false, []⟩ : Scheduler).subtract_workdays ⟨0, 0⟩ (-1) = ⟨0, 0⟩) ∧
    (⟨false, false, []⟩ : Scheduler).add_workdays ⟨5, 0⟩ 4 = addDays ⟨5, 0⟩ (4 - 1) :=
  ⟨c8_workday_stepping_boundary.1 ⟨false, false, []⟩ ⟨0, 0⟩ (-1) (by decide),
   c8_workday_stepping_boundary.2 ⟨false, false, []⟩ ⟨5, 0⟩ 4 rfl rfl (by decide)⟩

/-! ## Claim C9: deletion and progress-history consistency -/

/-- No record id equal to the deleted id survives in the store returned by
`delete_record`, whether or not the id was present. -/
theorem not_mem_delete_ids (records : List ProgressRecord) (rid : String) :
    rid ∉ (delete_record records rid).snd.map ProgressRecord.record_id := by
  unfold delete_record
  by_cases h : (records.filter (fun r => decide (r.record_id = rid))).isEmpty
  · rw [if_pos h]
    intro hmem
    rcases List.mem_map.mp hmem with ⟨r, hr, hid⟩
    have hmem2 : r ∈ records.filter (fun r => decide (r.record_id = rid)) :=
      List.mem_filter.mpr ⟨hr, by simp [hid]⟩
    rw [List.isEmpty_iff] at h
    simp [h] at hmem2
  · rw [if_neg h]
    intro hmem
    rcases List.mem_map.mp hmem with ⟨r, hr, hid⟩
    have hne := (List.mem_filter.mp hr).2
    simp only [decide_eq_true_eq] at hne
    exact hne hid

/-- C9, counterexample.  `ProgressManager.delete_record` only removes the
record from the manager's dict; it does not touch any task, so immediately
after a call that returned `True` the task that referenced the record still
lists the deleted id in its `progress_history` (the cleanup lives in the
separate `sync_task_history`, which callers must invoke themselves). -/
theorem c9_counterexample :
    (delete_record [sampleRecord "r1" "T" 0 10] "r1").fst = true ∧
      "r1" ∈ ({ mkTask "T" 1 "" with progress_history := ["r1"] } : Task).progress_history := by
  constructor
  · rfl
  · simp [mkTask]

/-- C9, amended: after `delete_record(recordId)` returns `True` **and the
histories are synchronised with `sync_task_history`**, no task's
`progress_history` still contains the deleted id. -/
theorem c9_delete_then_sync_no_dangling (records : List ProgressRecord)
    (rid : String) (tasks : List Task) (t : Task)
    (_hdel : (delete_record records rid).fst = true)
    (ht : t ∈ sync_task_history (delete_record records rid).snd tasks) :
    rid ∉ t.progress_history := by
  unfold sync_task_history at ht
  rcases List.mem_map.mp ht with ⟨t0, _, rfl⟩
  intro hmem
  simp only [List.mem_filter, decide_eq_true_eq] at hmem
  exact not_mem_delete_ids records rid hmem.2

/-- C9, witness for the amended theorem at a concrete store and task list. -/
theorem c9_delete_then_sync_no_dangling_witness :
    "r1" ∉ ({ mkTask "T" 1 "" with progress_history := [] } : Task).progress_history :=
  c9_delete_then_sync_no_dangling [sampleRecord "r1" "T" 0 10] "r1"
    [{ mkTask "T" 1 "" with progress_history := ["r1"] }]
    { mkTask "T" 1 "" with progress_history := [] }
    (by decide) (by decide)


/-! ## Claim C1: forward fallback for unresolved predecessors -/

/-- C1, counterexample.  The claim predicts that a task whose predecessor
does not resolve (here `"X"`, unknown) gets `projectStart` (day 0); the code
instead routes that task through the no-predecessor branch, which chains it
after the previous non-excluded task's end date (day 1), giving day 2. -/
theorem c1_counterexample :
    (((⟨false, false, []⟩ : Scheduler).calculate_dates
        [mkTask "1" 2 "", mkTask "2" 1 "X"] ⟨0, 0⟩)[1]?).map Task.start_date
      = some (some ⟨2, 0⟩) ∧ (some (⟨2, 0⟩ : DateTime) : Option DateTime) ≠ some ⟨0, 0⟩ := by
  decide

/-- C1, amended: for a non-pinned task with a non-empty predecessor, the
`projectStart` fallback applies exactly when the predecessor resolves in the
non-excluded task map but its end date is not yet computed; when the
predecessor does not resolve (unknown or excluded), the task is treated as
having no predecessor (`noPredFallback`: chained after the previous
non-excluded task's end date, with `projectStart` only when none exists). -/
theorem c1_unresolved_predecessor_fallback :
    (∀ (s : Scheduler) (ps : DateTime) (cur : List Task) (t q : Task),
        ¬(t.manual_start = true ∧ t.start_date.isSome = true) →
        t.predecessor ≠ "" →
        taskMapFind cur t.predecessor = some q →
        q.end_date = none →
        determineStart s ps cur t = ps) ∧
    (∀ (s : Scheduler) (ps : DateTime) (cur : List Task) (t : Task),
        t.predecessor ≠ "" →
        taskMapFind cur t.predecessor = none →
        determineStart s ps cur t = noPredFallback s ps cur t) := by
  constructor
  · intro s ps cur t q hpin hpred hfind hend
    unfold determineStart
    rw [if_neg (by simp only [Bool.and_eq_true, decide_eq_true_eq]
                   exact fun h => hpin ⟨h.1, h.2⟩)]
    rw [if_pos (by simp [hpred, hfind])]
    rw [hfind]
    simp [hend]
  · intro s ps cur t hpred hfind
    unfold determineStart
    by_cases hpin : t.manual_start && t.start_date.isSome
    · rw [if_pos hpin]
      simp only [Bool.and_eq_true] at hpin
      obtain ⟨d, hd⟩ := Option.isSome_iff_exists.mp hpin.2
      unfold noPredFallback
      rw [hd]
      rfl
    · rw [if_neg hpin, if_neg (by simp [hfind])]

/-- C1, witness for the amended theorem: both branches at concrete inputs. -/
theorem c1_unresolved_predecessor_fallback_witness :
    determineStart ⟨false, false, []⟩ ⟨0, 0⟩ [mkTask "1" 2 ""] (mkTask "2" 1 "1") = ⟨0, 0⟩ ∧
      determineStart ⟨false, false, []⟩ ⟨0, 0⟩ [mkTask "1" 2 ""] (mkTask "2" 1 "X")
        = noPredFallback ⟨false, false, []⟩ ⟨0, 0⟩ [mkTask "1" 2 ""] (mkTask "2" 1 "X") :=
  ⟨c1_unresolved_predecessor_fallback.1 ⟨false, false, []⟩ ⟨0, 0⟩ [mkTask "1" 2 ""]
      (mkTask "2" 1 "1") (mkTask "1" 2 "") (by decide) (by decide) (by decide) (by decide),
    c1_unresolved_predecessor_fallback.2 ⟨false, false, []⟩ ⟨0, 0⟩ [mkTask "1" 2 ""]
      (mkTask "2" 1 "X") (by decide) (by decide)⟩

/-! ## Claim C5: pin preservation -/

/-- C5, counterexample.  An excluded task with a pinned (`manualStart`) start
date has its start date forced to `None` by the forward pass, so the claim as
stated — quantified over *every* task — fails; pins survive only on
non-excluded tasks. -/
theorem c5_counterexample :
    (((⟨false, false, []⟩ : Scheduler).calculate_dates
        [{ mkTask "E" 1 "" with excluded := true, manual_start := true, start_date := some ⟨3, 0⟩ }]
        ⟨0, 0⟩)[0]?).map Task.start_date = some none ∧
      ({ mkTask "E" 1 "" with excluded := true, manual_start := true, start_date := some ⟨3, 0⟩ }
          : Task).start_date = some ⟨3, 0⟩ := by
  decide

/-- C5, amended: every **non-excluded** task with `manual_start` and a set
start date keeps its start date across both the forward and the backward
pass, for every task list, anchor date and calendar configuration. -/
theorem c5_pin_preservation :
    (∀ (s : Scheduler) (tasks : List Task) (ps : DateTime) (j : Nat) (t : Task),
        tasks[j]? = some t → t.excluded = false → t.manual_start = true →
        t.start_date.isSome = true →
        ((s.calculate_dates tasks ps)[j]?).map Task.start_date = some t.start_date) ∧
    (∀ (s : Scheduler) (tasks : List Task) (pe : DateTime) (j : Nat) (t : Task),
        tasks[j]? = some t → t.excluded = false → t.manual_start = true →
        t.start_date.isSome = true →
        ((s.calculate_dates_backward tasks pe)[j]?).map Task.start_date = some t.start_date) :=
  ⟨fun s tasks ps j t hj hexc hman hsd =>
      calculate_dates_pin_start s tasks ps j t hj hexc hman hsd,
    fun s tasks pe j t hj hexc hman hsd =>
      calculate_dates_backward_pin_start s tasks pe j t hj hexc hman hsd⟩

/-- C5, witness: a concrete pinned task list through both passes. -/
theorem c5_pin_preservation_witness :
    (((⟨false, false, []⟩ : Scheduler).calculate_dates
        [{ mkTask "P" 1 "" with manual_start := true, start_date := some ⟨3, 0⟩ }]
        ⟨0, 0⟩)[0]?).map Task.start_date
      = some ({ mkTask "P" 1 "" with manual_start := true, start_date := some ⟨3, 0⟩ }
          : Task).start_date ∧
    (((⟨false, false, []⟩ : Scheduler).calculate_dates_backward
        [{ mkTask "P" 1 "" with manual_start := true, start_date := some ⟨3, 0⟩ }]
        ⟨9, 0⟩)[0]?).map Task.start_date
      = some ({ mkTask "P" 1 "" with manual_start := true, start_date := some ⟨3, 0⟩ }
          : Task).start_date :=
  ⟨c5_pin_preservation.1 ⟨false, false, []⟩
      [{ mkTask "P" 1 "" with manual_start := true, start_date := some ⟨3, 0⟩ }]
      ⟨0, 0⟩ 0 { mkTask "P" 1 "" with manual_start := true, start_date := some ⟨3, 0⟩ }
      (by decide) (by decide) (by decide) (by decide),
    c5_pin_preservation.2 ⟨false, false, []⟩
      [{ mkTask "P" 1 "" with manual_start := true, start_date := some ⟨3, 0⟩ }]
      ⟨9, 0⟩ 0 { mkTask "P" 1 "" with manual_start := true, start_date := some ⟨3, 0⟩ }
      (by decide) (by decide) (by decide) (by decide)⟩

/-! ## Claim C10: backward fallback when no successor start is computed -/

/-- C10: in the backward pass, a non-pinned task that has successor edges but
no successor with an already-computed start date (all excluded, or placed
earlier in list order and so not yet visited by the reverse walk) receives
the project deadline as its end date — the same fallback as a task with no
successors at all. -/
theorem c10_backward_no_computed_successor_fallback (s : Scheduler)
    (project_end : DateTime) (succsOf : String → List String) (cur : List Task)
    (t : Task)
    (hpin : ¬(t.manual_end = true ∧ t.end_date.isSome = true))
    (hsucc : succsOf t.task_no ≠ [])
    (hnone : ∀ no ∈ succsOf t.task_no, (taskMapFind cur no).bind Task.start_date = none) :
    determineEndBackward s project_end succsOf cur t = project_end := by
  unfold determineEndBackward
  rw [if_neg (by simp only [Bool.and_eq_true]
                 exact fun h => hpin ⟨h.1, h.2⟩)]
  rw [if_pos (by simpa using hsucc)]
  rw [minSuccessorStart_eq_none cur _ hnone]

/-- C10, witness: task `"2"` has the single successor `"1"` (earlier in list
order, start not yet computed), and falls back to the deadline. -/
theorem c10_backward_no_computed_successor_fallback_witness :
    determineEndBackward ⟨false, false, []⟩ ⟨9, 0⟩
      (successorsOf [mkTask "1" 1 "2", mkTask "2" 1 ""])
      [mkTask "1" 1 "2", mkTask "2" 1 ""] (mkTask "2" 1 "") = ⟨9, 0⟩ :=
  c10_backward_no_computed_successor_fallback ⟨false, false, []⟩ ⟨9, 0⟩
    (successorsOf [mkTask "1" 1 "2", mkTask "2" 1 ""])
    [mkTask "1" 1 "2", mkTask "2" 1 ""] (mkTask "2" 1 "")
    (by decide) (by decide) (by decide)


/-! ## Claim C3: end date not before start date -/

/-- C3, counterexample.  A task pinned on both sides with `endDate` before
`startDate` keeps both pins through the forward pass, so the invariant
`endDate ≥ startDate` fails for a non-excluded task with both dates set. -/
theorem c3_counterexample :
    (((⟨false, false, []⟩ : Scheduler).calculate_dates
        [{ mkTask "P" 1 "" with manual_start := true, start_date := some ⟨10, 0⟩, manual_end := true, end_date := some ⟨5, 0⟩ }]
        ⟨0, 0⟩)[0]?).map datesOf = some (some ⟨10, 0⟩, some ⟨5, 0⟩) ∧
      dtLe ⟨10, 0⟩ ⟨5, 0⟩ = false := by
  decide

/-- C3, amended: after the forward pass every non-excluded task whose end was
not manually pinned, and after the backward pass every non-excluded task
whose start was not manually pinned, has both dates set with
`startDate ≤ endDate`.  (A date pinned against the propagation direction can
violate the invariant, as the counterexample shows.) -/
theorem c3_end_not_before_start :
    (∀ (s : Scheduler) (tasks : List Task) (ps : DateTime) (j : Nat) (t : Task),
        (s.calculate_dates tasks ps)[j]? = some t →
        t.excluded = false → t.manual_end = false →
        endAfterStart t = true) ∧
    (∀ (s : Scheduler) (tasks : List Task) (pe : DateTime) (j : Nat) (t : Task),
        (s.calculate_dates_backward tasks pe)[j]? = some t →
        t.excluded = false → t.manual_start = false →
        endAfterStart t = true) := by
  constructor
  · intro s tasks ps j t hj hexc hme
    have hjlt : j < tasks.length := by
      have h := (List.getElem?_eq_some.mp hj).1
      rwa [calculate_dates_length] at h
    obtain ⟨mid, t0, ht0, hout⟩ := calculate_dates_getElem_eq_process s tasks ps j hjlt
    rw [hout] at hj
    have ht : t = processForward s ps mid (clearDates t0) := by
      injection hj with h
      exact h.symm
    subst ht
    obtain ⟨sd, ed, h1, h2, h3⟩ := processForward_end_ge_start s ps mid (clearDates t0)
      ((processForward_excluded s ps mid (clearDates t0)).symm.trans hexc)
      ((processForward_manual_end s ps mid (clearDates t0)).symm.trans hme)
    unfold endAfterStart
    rw [h1, h2]
    exact h3
  · intro s tasks pe j t hj hexc hms
    have hjlt : j < tasks.length := by
      have h := (List.getElem?_eq_some.mp hj).1
      rwa [calculate_dates_backward_length] at h
    obtain ⟨mid, t0, ht0, hout⟩ :=
      calculate_dates_backward_getElem_eq_process s tasks pe j hjlt
    rw [hout] at hj
    have ht : t = processBackward s pe (successorsOf (tasks.map clearDates)) mid (clearDates t0) := by
      injection hj with h
      exact h.symm
    subst ht
    obtain ⟨sd, ed, h1, h2, h3⟩ := processBackward_end_ge_start s pe _ mid (clearDates t0)
      ((processBackward_excluded s pe _ mid (clearDates t0)).symm.trans hexc)
      ((processBackward_manual_start s pe _ mid (clearDates t0)).symm.trans hms)
    unfold endAfterStart
    rw [h1, h2]
    exact h3

/-- C3, witness: both passes on a concrete two-day task. -/
theorem c3_end_not_before_start_witness :
    endAfterStart { mkTask "A" 2 "" with start_date := some ⟨0, 0⟩, end_date := some ⟨1, 0⟩ } = true ∧
      endAfterStart { mkTask "A" 2 "" with start_date := some ⟨8, 0⟩, end_date := some ⟨9, 0⟩ } = true :=
  ⟨c3_end_not_before_start.1 ⟨false, false, []⟩ [mkTask "A" 2 ""] ⟨0, 0⟩ 0
      { mkTask "A" 2 "" with start_date := some ⟨0, 0⟩, end_date := some ⟨1, 0⟩ }
      (by decide) (by decide) (by decide),
    c3_end_not_before_start.2 ⟨false, false, []⟩ [mkTask "A" 2 ""] ⟨9, 0⟩ 0
      { mkTask "A" 2 "" with start_date := some ⟨8, 0⟩, end_date := some ⟨9, 0⟩ }
      (by decide) (by decide) (by decide)⟩


/-! ## Claim C2: per-day upsert semantics of the progress ledger -/

/-- C2: `add_record` preserves the at-most-one-record-per-`(taskNo, day)`
invariant (together with the uniqueness of record ids, which the dict
guarantees and a fresh uuid extends), and a call for a `(task, day)` pair
that already has a record updates that record in place: the store keeps its
length, the task's `progressHistory` is unchanged, and the record's
`increment` is recomputed as the submitted progress minus
`_get_previous_day_progress` — which is `0`, making the increment the full
submitted progress, when the task has no record on an earlier calendar
day. -/
theorem c2_add_record_upsert (records : List ProgressRecord) (task : Task)
    (p : Int) (st : TaskStatus) (note iss : String) (rdate : DateTime)
    (nid : String) (now : DateTime)
    (hids : (records.map ProgressRecord.record_id).Nodup)
    (hpairs : (records.map (fun r => (r.task_no, r.record_date.day))).Nodup)
    (hfresh : nid ∉ records.map ProgressRecord.record_id) :
    (((add_record records task p st note iss rdate nid now).records.map
        (fun r => (r.task_no, r.record_date.day))).Nodup ∧
      ((add_record records task p st note iss rdate nid now).records.map
        ProgressRecord.record_id).Nodup) ∧
    (∀ r, findRecordByTaskDate records task.task_no rdate.day = some r →
      (add_record records task p st note iss rdate nid now).records
          = records.map (fun x => if x.record_id = r.record_id
              then updatedRecord r p st note iss
                (p - getPreviousDayProgress records task.task_no rdate.day) now
              else x) ∧
        (add_record records task p st note iss rdate nid now).records.length = records.length ∧
        (add_record records task p st note iss rdate nid now).task.progress_history
          = task.progress_history ∧
        (add_record records task p st note iss rdate nid now).record.increment
          = p - getPreviousDayProgress records task.task_no rdate.day) ∧
    ((∀ r ∈ records, r.task_no = task.task_no → ¬(r.record_date.day < rdate.day)) →
      (add_record records task p st note iss rdate nid now).record.increment = p) := by
  refine ⟨?_, ?_, ?_⟩
  · unfold add_record
    cases hf : findRecordByTaskDate records task.task_no rdate.day with
    | some r =>
      have hrmem : r ∈ records := List.mem_of_find?_eq_some hf
      constructor
      · show (List.map (fun rr => (rr.task_no, rr.record_date.day))
            (records.map (fun x => if x.record_id = r.record_id
              then updatedRecord r p st note iss
                (p - getPreviousDayProgress records task.task_no rdate.day) now
              else x))).Nodup
        rw [List.map_map]
        have hmapeq : records.map ((fun rr => (rr.task_no, rr.record_date.day)) ∘
            (fun x => if x.record_id = r.record_id
              then updatedRecord r p st note iss
                (p - getPreviousDayProgress records task.task_no rdate.day) now
              else x))
            = records.map (fun rr => (rr.task_no, rr.record_date.day)) := by
          apply List.map_congr_left
          intro x hx
          by_cases hid : x.record_id = r.record_id
          · have hxr : x = r :=
              List.inj_on_of_nodup_map hids hx hrmem (by simpa using hid)
            subst hxr
            simp [hid, updatedRecord]
          · simp [Function.comp, hid]
        rw [hmapeq]
        exact hpairs
      · show (List.map ProgressRecord.record_id
            (records.map (fun x => if x.record_id = r.record_id
              then updatedRecord r p st note iss
                (p - getPreviousDayProgress records task.task_no rdate.day) now
              else x))).Nodup
        rw [List.map_map]
        have hmapeq : records.map (ProgressRecord.record_id ∘
            (fun x => if x.record_id = r.record_id
              then updatedRecord r p st note iss
                (p - getPreviousDayProgress records task.task_no rdate.day) now
              else x))
            = records.map ProgressRecord.record_id := by
          apply List.map_congr_left
          intro x hx
          by_cases hid : x.record_id = r.record_id
          · simp [Function.comp, hid, updatedRecord]
          · simp [Function.comp, hid]
        rw [hmapeq]
        exact hids
    | none =>
      have hnone := List.find?_eq_none.mp hf
      constructor
      · show (List.map (fun rr => (rr.task_no, rr.record_date.day))
            (records ++ [freshRecord nid task.task_no rdate p st note iss
              (p - getPreviousDayProgress records task.task_no rdate.day) now])).Nodup
        rw [List.map_append, List.nodup_append]
        refine ⟨hpairs, List.nodup_singleton _, ?_⟩
        intro pr hpr hpr1
        simp only [List.map_cons, List.map_nil, List.mem_singleton] at hpr1
        subst hpr1
        rcases List.mem_map.mp hpr with ⟨x, hx, hxeq⟩
        have hnx := hnone x hx
        simp only [Bool.and_eq_true, decide_eq_true_eq, not_and] at hnx
        have h1 : x.task_no = (freshRecord nid task.task_no rdate p st note iss
            (p - getPreviousDayProgress records task.task_no rdate.day) now).task_no :=
          congrArg Prod.fst hxeq
        have h2 : x.record_date.day = (freshRecord nid task.task_no rdate p st note iss
            (p - getPreviousDayProgress records task.task_no rdate.day) now).record_date.day :=
          congrArg Prod.snd hxeq
        exact hnx h1 h2
      · show (List.map ProgressRecord.record_id
            (records ++ [freshRecord nid task.task_no rdate p st note iss
              (p - getPreviousDayProgress records task.task_no rdate.day) now])).Nodup
        rw [List.map_append, List.nodup_append]
        refine ⟨hids, List.nodup_singleton _, ?_⟩
        intro idv hidv hidv1
        simp only [List.map_cons, List.map_nil, List.mem_singleton] at hidv1
        subst hidv1
        exact hfresh hidv
  · intro r hr
    unfold add_record
    rw [hr]
    refine ⟨rfl, by simp, ?_, rfl⟩
    rw [applyStatusDates_progress_history]
  · intro h
    have hz : getPreviousDayProgress records task.task_no rdate.day = 0 :=
      getPreviousDayProgress_eq_zero records task.task_no rdate.day h
    unfold add_record
    cases hf : findRecordByTaskDate records task.task_no rdate.day with
    | some r =>
      show (updatedRecord r p st note iss
        (p - getPreviousDayProgress records task.task_no rdate.day) now).increment = p
      rw [show (updatedRecord r p st note iss
          (p - getPreviousDayProgress records task.task_no rdate.day) now).increment
        = p - getPreviousDayProgress records task.task_no rdate.day from rfl]
      rw [hz]
      omega
    | none =>
      show (freshRecord nid task.task_no rdate p st note iss
        (p - getPreviousDayProgress records task.task_no rdate.day) now).increment = p
      rw [show (freshRecord nid task.task_no rdate p st note iss
          (p - getPreviousDayProgress records task.task_no rdate.day) now).increment
        = p - getPreviousDayProgress records task.task_no rdate.day from rfl]
      rw [hz]
      omega

/-- C2, witness: the spec's same-day-correction scenario (records of 20 on
day 1 and 50 on day 2; a correction to 45 on day 2 updates in place with
increment `45 - 20 = 25`). -/
theorem c2_add_record_upsert_witness :
    (add_record [sampleRecord "r1" "T" 1 20, sampleRecord "r2" "T" 2 50]
        (mkTask "T" 3 "") 45 TaskStatus.inProgress "" "" (dt 2) "r3" (dt 2)).records.length
      = 2 ∧
    (add_record [sampleRecord "r1" "T" 1 20, sampleRecord "r2" "T" 2 50]
        (mkTask "T" 3 "") 45 TaskStatus.inProgress "" "" (dt 2) "r3" (dt 2)).task.progress_history
      = (mkTask "T" 3 "").progress_history ∧
    (add_record [sampleRecord "r1" "T" 1 20, sampleRecord "r2" "T" 2 50]
        (mkTask "T" 3 "") 45 TaskStatus.inProgress "" "" (dt 2) "r3" (dt 2)).record.increment
      = 25 := by
  have H := c2_add_record_upsert [sampleRecord "r1" "T" 1 20, sampleRecord "r2" "T" 2 50]
    (mkTask "T" 3 "") 45 TaskStatus.inProgress "" "" (dt 2) "r3" (dt 2)
    (by decide) (by decide) (by decide)
  have H2 := H.2.1 (sampleRecord "r2" "T" 2 50) (by decide)
  exact ⟨by rw [H2.2.1]; decide, H2.2.2.1, H2.2.2.2.trans (by decide)⟩


/-! ## Claim C6: cycle tolerance of the dependency sort -/

/-- C6, counterexample.  Two identical input tasks (the same task value
listed twice) are collapsed: the DFS emits the shared task number once, and
the final loop skips both occurrences because the task value is already in
the output (`task not in sorted_tasks`), so the output has one element where
the input had two — an input task does not, in general, appear once per input
occurrence. -/
theorem c6_counterexample :
    (sort_by_predecessor [mkTask "A" 1 "", mkTask "A" 1 ""]).length = 1 ∧
      ([mkTask "A" 1 "", mkTask "A" 1 ""] : List Task).length = 2 := by
  decide

/-- C6, amended: for every input whose task numbers are pairwise distinct —
including every cyclic predecessor graph, such as `A→B→A` — the sort
terminates with every input task occurring exactly once in the result, and
the result contains only input tasks.  (With duplicated task numbers or
duplicated task values the function still terminates, but occurrences can be
collapsed, as the counterexample shows.) -/
theorem c6_topo_sort_each_task_once (tasks : List Task)
    (hnd : (tasks.map Task.task_no).Nodup) :
    (∀ t ∈ tasks, (sort_by_predecessor tasks).count t = 1) ∧
      (∀ t ∈ sort_by_predecessor tasks, t ∈ tasks) := by
  by_cases hemp : tasks.isEmpty
  · have hnil : tasks = [] := by
      cases tasks with
      | nil => rfl
      | cons a l => simp at hemp
    subst hnil
    exact ⟨fun t ht => absurd ht (List.not_mem_nil t), fun t ht => ht⟩
  · set dfsSt := (sortByLt taskNoLt tasks).foldl (fun st t =>
        if decide (t.task_no ≠ "") && decide (t.task_no ∉ st.visited) then
          visit tasks (tasks.length + 1) st t.task_no
        else st) { visited := [], temp := [], sorted := [] } with hdfs
    have hrw : sort_by_predecessor tasks = tasks.foldl
        (fun acc t => if decide (t.task_no = "") || decide (t ∉ acc) then acc ++ [t] else acc)
        dfsSt.sorted := by
      unfold sort_by_predecessor
      rw [if_neg hemp]
    obtain ⟨hd1, hd2, _, hd4⟩ := dfs_fold_spec tasks (sortByLt taskNoLt tasks)
      { visited := [], temp := [], sorted := [] } rfl
      ⟨List.nodup_nil, by simp, rfl, by simp⟩
      (fun t ht => (mem_sortByLt taskNoLt t tasks).mp ht)
    rw [← hdfs] at hd2 hd4
    have hSmapnodup : (dfsSt.sorted.map Task.task_no).Nodup := by
      rw [hd2.2.2.1]
      exact (List.nodup_reverse).mpr hd2.1
    have hSnodup : dfsSt.sorted.Nodup := List.Nodup.of_map _ hSmapnodup
    have hmemS : ∀ t ∈ tasks, t.task_no ≠ "" → t ∈ dfsSt.sorted := by
      intro t ht hne
      have hv : t.task_no ∈ dfsSt.visited :=
        hd4 t ((mem_sortByLt taskNoLt t tasks).mpr ht) hne
      have hmm : t.task_no ∈ dfsSt.sorted.map Task.task_no := by
        rw [hd2.2.2.1, List.mem_reverse]
        exact hv
      rcases List.mem_map.mp hmm with ⟨x, hxS, hxno⟩
      have hx := hd2.2.2.2 x hxS
      rw [hxno] at hx
      have ht' := csvTaskMap_self tasks hnd t ht hne
      rw [ht'] at hx
      injection hx with h
      subst h
      exact hxS
    have hSsub : ∀ x ∈ dfsSt.sorted, x ∈ tasks ∧ x.task_no ≠ "" := by
      intro x hx
      obtain ⟨h1, _, h3⟩ := csvTaskMap_eq_some tasks x.task_no x (hd2.2.2.2 x hx)
      exact ⟨h1, h3⟩
    rw [hrw, final_fold_spec tasks dfsSt.sorted (fun t ht hne => hmemS t ht hne)]
    constructor
    · intro t ht
      rw [List.count_append]
      by_cases hne : t.task_no = ""
      · have h0 : List.count t dfsSt.sorted = 0 :=
          List.count_eq_zero_of_not_mem (fun hc => (hSsub t hc).2 hne)
        have h1 : List.count t (tasks.filter (fun t => decide (t.task_no = ""))) = 1 := by
          apply List.count_eq_one_of_mem ((List.Nodup.of_map _ hnd).filter _)
          exact List.mem_filter.mpr ⟨ht, by simp [hne]⟩
        rw [h0, h1]
      · have h1 : List.count t dfsSt.sorted = 1 :=
          List.count_eq_one_of_mem hSnodup (hmemS t ht hne)
        have h0 : List.count t (tasks.filter (fun t => decide (t.task_no = ""))) = 0 := by
          apply List.count_eq_zero_of_not_mem
          intro hc
          have := List.mem_filter.mp hc
          simp only [decide_eq_true_eq] at this
          exact hne this.2
        rw [h0, h1]
    · intro x hx
      rcases List.mem_append.mp hx with h | h
      · exact (hSsub x h).1
      · exact (List.mem_filter.mp h).1

/-- C6, witness: the two-task cycle `A→B→A` terminates with both tasks
returned exactly once. -/
theorem c6_topo_sort_each_task_once_witness :
    (sort_by_predecessor [mkTask "A" 1 "B", mkTask "B" 1 "A"]).count (mkTask "A" 1 "B") = 1 ∧
      (sort_by_predecessor [mkTask "A" 1 "B", mkTask "B" 1 "A"]).count (mkTask "B" 1 "A") = 1 :=
  ⟨(c6_topo_sort_each_task_once [mkTask "A" 1 "B", mkTask "B" 1 "A"] (by decide)).1
      (mkTask "A" 1 "B") (by decide),
    (c6_topo_sort_each_task_once [mkTask "A" 1 "B", mkTask "B" 1 "A"] (by decide)).1
      (mkTask "B" 1 "A") (by decide)⟩

end APQP
